import Mathlib

/-!
# A string queue on a singly linked list (`queue.c`)

Shallow embedding of `queue.c`.  The node memory is an explicit heap: a finite
map from addresses to nodes.  Every C function becomes a function that takes the
heap (and the queue record) and returns the new heap (and queue record).

* A pointer is `Option Nat`; `none` is `NULL`.
* A C string is the list of the bytes of its array; reading stops at the first
  `0` byte or at the end of the list (the end of the list stands for the
  terminating NUL of the array).
* Dereferencing a pointer that is not a live node, or writing past the end of
  a buffer, is undefined behaviour in C; the embedding reports `Err.fault`.
* Loops and recursion over the heap take a step budget (`fuel`); running out of
  it is reported as `Err.fuel`.  The theorems give a budget that suffices.
* `malloc` is a parameter of the inserting functions: the caller of the
  embedding supplies the result of each allocation (`none` / `false` when the
  allocation fails).
* `int size` is modelled by `Int` without wrap-around (signed overflow is
  undefined behaviour in C and needs more than `2^31 - 1` elements).
-/

namespace Queue

/-- Ways in which a run of the embedded code does not produce a result. -/
inductive Err where
  /-- A pointer that is not a live node was dereferenced, or a buffer overrun. -/
  | fault
  /-- The step budget was exhausted. -/
  | fuel
deriving DecidableEq, Repr

/-- A node pointer; `none` is `NULL`. -/
abbrev Ptr := Option Nat

/-- Modelled from the spec: `queue.h` is not part of the sources; the fields are
those `queue.c` uses (`value`, `next`).  The owned string `value` is stored
inline: the bytes of the array `value` points to. -/
structure list_ele_t where
  value : List Nat
  next : Ptr
deriving DecidableEq, Repr

/-- Modelled from the spec: `queue.h` is not part of the sources; the fields are
those `queue.c` uses (`head`, `tail`, `size`), with `size` an `int` as returned
by `q_size`. -/
structure queue_t where
  head : Ptr
  tail : Ptr
  size : Int
deriving DecidableEq, Repr

/-- The node memory: which addresses hold a live node, and its contents. -/
abbrev Heap := Nat → Option list_ele_t

/-- The heap with no live node. -/
def Heap.empty : Heap := fun _ => none

/-- Write a whole node at address `p`. -/
def Heap.store (m : Heap) (p : Nat) (n : list_ele_t) : Heap :=
  fun a => if a = p then some n else m a

/-- Release the node at address `p` (`free`). -/
def Heap.free (m : Heap) (p : Nat) : Heap :=
  fun a => if a = p then none else m a

/-- Read through a node pointer (`p->...`). -/
def load (m : Heap) (p : Ptr) : Except Err list_ele_t :=
  match p with
  | none => .error .fault
  | some a =>
    match m a with
    | none => .error .fault
    | some n => .ok n

/-! ## C library string functions -/

/-- `tolower` in the C locale, on a byte. -/
def tolower (c : Nat) : Nat := if 65 ≤ c ∧ c ≤ 90 then c + 32 else c

/-- The C string stored in a byte array: the bytes before the first NUL. -/
def cstr (s : List Nat) : List Nat := s.takeWhile (fun c => c != 0)

/-- `strlen`. -/
def strlen (s : List Nat) : Nat := (cstr s).length

/-- `strcpy` into a fresh array: the array then holds the source string. -/
def strcpy (s : List Nat) : List Nat := cstr s

/-- `strncpy(dst, src, n)`: exactly `n` bytes of `dst` are written, the bytes of
the string `src` followed by NUL padding; the rest of `dst` is kept. -/
def strncpy (dst src : List Nat) (n : Nat) : Except Err (List Nat) :=
  if n ≤ dst.length then
    .ok ((cstr src ++ List.replicate n 0).take n ++ dst.drop n)
  else .error .fault

/-- `strcasecmp`: difference of the first pair of bytes that differ after
`tolower`, `0` when both strings end together. -/
def strcasecmp : List Nat → List Nat → Int
  | [], [] => 0
  | [], c2 :: _ => (tolower 0 : Int) - (tolower c2 : Int)
  | c1 :: _, [] => (tolower c1 : Int) - (tolower 0 : Int)
  | c1 :: s1, c2 :: s2 =>
    if tolower c1 = tolower c2 then
      if c1 = 0 then 0 else strcasecmp s1 s2
    else (tolower c1 : Int) - (tolower c2 : Int)

/-! ## The queue operations -/

/-- `q_new`; the argument is whether `malloc` succeeded. -/
def q_new (malloc_ok : Bool) : Option queue_t :=
  if malloc_ok then some { head := none, tail := none, size := 0 } else none

/-- `q_free`: releases every node reachable from `head`. -/
def q_free : Nat → Heap → Option queue_t → Except Err Heap
  | _, m, none => .ok m
  | fuel, m, some q =>
    match q.head with
    | none => .ok m
    | some tmp =>
      match fuel with
      | 0 => .error .fuel
      | fuel + 1 =>
        match m tmp with
        | none => .error .fault
        | some n => q_free fuel (m.free tmp) (some { q with head := n.next })

/-- `q_insert_head`; `news_ok` is whether the string allocation succeeded and
`newh` the result of the node allocation.  Returns the result and the new
state. -/
def q_insert_head (m : Heap) (q : Option queue_t) (s : List Nat)
    (news_ok : Bool) (newh : Ptr) : Bool × Heap × Option queue_t :=
  match q with
  | none => (false, m, none)
  | some qq =>
    if !news_ok then (false, m, q)
    else
      let news := strcpy s
      match newh with
      | none => (false, m, q)
      | some p =>
        let m1 := m.store p { value := news, next := qq.head }
        let q1 : queue_t := { qq with head := some p, size := qq.size + 1 }
        let q2 : queue_t := if q1.size = 1 then { q1 with tail := some p } else q1
        (true, m1, some q2)

/-- `q_insert_tail`; `news_ok` is whether the string allocation succeeded and
`newt` the result of the node allocation. -/
def q_insert_tail (m : Heap) (q : Option queue_t) (s : List Nat)
    (news_ok : Bool) (newt : Ptr) : Except Err (Bool × Heap × Option queue_t) :=
  match q with
  | none => .ok (false, m, none)
  | some qq =>
    if !news_ok then .ok (false, m, q)
    else
      let news := strcpy s
      match newt with
      | none => .ok (false, m, q)
      | some p =>
        let m1 := m.store p { value := news, next := none }
        match qq.tail with
        | none =>
          .ok (true, m1, some { head := some p, tail := some p, size := qq.size + 1 })
        | some t =>
          match m1 t with
          | none => .error .fault
          | some nt =>
            let m2 := m1.store t { nt with next := some p }
            .ok (true, m2, some { qq with tail := some p, size := qq.size + 1 })

/-- `n - 1` on `size_t` operands (64 bits), that is `(n + 2^64 - 1) % 2^64`:
`0 - 1` wraps around to `2^64 - 1`. -/
def size_t_dec (n : Nat) : Nat := if n = 0 then 2 ^ 64 - 1 else (n - 1) % 2 ^ 64

/-- The block `if (sp) { strncpy(sp, tmp->value, bufsize - 1); sp[bufsize - 1] = 0; }`
of `q_remove_head`: the buffer afterwards (`none` when `sp` is `NULL`). -/
def copy_out (sp : Option (List Nat)) (value : List Nat) (bufsize : Nat) :
    Except Err (Option (List Nat)) :=
  match sp with
  | none => .ok none
  | some buf =>
    match strncpy buf value (size_t_dec bufsize) with
    | .error e => .error e
    | .ok b1 =>
      if size_t_dec bufsize < b1.length then .ok (some (b1.set (size_t_dec bufsize) 0))
      else .error .fault

/-- `q_remove_head`; `sp` is the caller's buffer (`none` for `NULL`) and
`bufsize` a `size_t`.  Returns the result, the new state and the buffer. -/
def q_remove_head (m : Heap) (q : Option queue_t) (sp : Option (List Nat))
    (bufsize : Nat) : Except Err (Bool × Heap × Option queue_t × Option (List Nat)) :=
  match q with
  | none => .ok (false, m, none, sp)
  | some qq =>
    match qq.head with
    | none => .ok (false, m, q, sp)
    | some tmp =>
      match m tmp with
      | none => .error .fault
      | some n =>
        match copy_out sp n.value bufsize with
        | .error e => .error e
        | .ok sp1 =>
          let q1 : queue_t := { qq with head := n.next }
          let q2 : queue_t := if q1.size ≠ 0 then { q1 with size := q1.size - 1 } else q1
          .ok (true, m.free tmp, some q2, sp1)

/-- `q_size`. -/
def q_size (q : Option queue_t) : Int :=
  match q with
  | none => 0
  | some qq => qq.size

/-- The loop of `q_reverse`, on the variables `cursor`, `node_head`,
`node_tail`. -/
def q_reverse_loop : Nat → Heap → Ptr → Ptr → Ptr → Except Err (Heap × Ptr × Ptr)
  | _, m, cursor, none, node_tail => .ok (m, cursor, node_tail)
  | 0, _, _, some _, _ => .error .fuel
  | fuel + 1, m, cursor, some p, node_tail =>
    match m p with
    | none => .error .fault
    | some n =>
      let next := n.next
      let m1 := m.store p { n with next := cursor }
      let cursor1 : Ptr := some p
      match load m1 cursor1 with
      | .error e => .error e
      | .ok c =>
        let node_tail1 := if c.next = none then cursor1 else node_tail
        q_reverse_loop fuel m1 cursor1 next node_tail1

/-- `q_reverse`. -/
def q_reverse (fuel : Nat) (m : Heap) (q : Option queue_t) :
    Except Err (Heap × Option queue_t) :=
  match q with
  | none => .ok (m, none)
  | some qq =>
    match q_reverse_loop fuel m none qq.head qq.tail with
    | .error e => .error e
    | .ok (m1, cursor, node_tail) =>
      .ok (m1, some { qq with head := cursor, tail := node_tail })

/-- `SortedMerge`: returns the heap after relinking and the head of the merged
chain. -/
def SortedMerge : Nat → Heap → Ptr → Ptr → Except Err (Heap × Ptr)
  | _, m, none, b => .ok (m, b)
  | _, m, some a, none => .ok (m, some a)
  | 0, _, some _, some _ => .error .fuel
  | fuel + 1, m, some a, some b =>
    match m a, m b with
    | some na, some nb =>
      if strcasecmp na.value nb.value < 0 then
        match SortedMerge fuel m na.next (some b) with
        | .error e => .error e
        | .ok (m1, r) =>
          match m1 a with
          | none => .error .fault
          | some res => .ok (m1.store a { res with next := r }, some a)
      else
        match SortedMerge fuel m (some a) nb.next with
        | .error e => .error e
        | .ok (m1, r) =>
          match m1 b with
          | none => .error .fault
          | some res => .ok (m1.store b { res with next := r }, some b)
    | _, _ => .error .fault

/-- The slow/fast walk of `MergeSort` (FrontBackSplit): returns `slow`. -/
def split_loop : Nat → Heap → Ptr → Ptr → Except Err Ptr
  | _, _, slow, none => .ok slow
  | 0, _, _, some _ => .error .fuel
  | fuel + 1, m, slow, some f =>
    match m f with
    | none => .error .fault
    | some nf =>
      match nf.next with
      | none => split_loop fuel m slow none
      | some f1 =>
        match load m slow, m f1 with
        | .ok ns, some nf1 => split_loop fuel m ns.next nf1.next
        | _, _ => .error .fault

/-- `MergeSort(&head)`: returns the heap after relinking and the new value of
`*headRef`. -/
def MergeSort : Nat → Heap → Ptr → Except Err (Heap × Ptr)
  | 0, _, _ => .error .fuel
  | fuel + 1, m, head =>
    match head with
    | none => .ok (m, head)
    | some h =>
      match m h with
      | none => .error .fault
      | some nh =>
        if nh.next = none then .ok (m, head)
        else
          match split_loop fuel m head nh.next with
          | .error e => .error e
          | .ok slow =>
            match slow with
            | none => .error .fault
            | some s =>
              match m s with
              | none => .error .fault
              | some ns =>
                let a := head
                let b := ns.next
                let m1 := m.store s { ns with next := none }
                match MergeSort fuel m1 a with
                | .error e => .error e
                | .ok (m2, a1) =>
                  match MergeSort fuel m2 b with
                  | .error e => .error e
                  | .ok (m3, b1) => SortedMerge fuel m3 a1 b1

/-- `q_sort`. -/
def q_sort (fuel : Nat) (m : Heap) (q : Option queue_t) :
    Except Err (Heap × Option queue_t) :=
  match q with
  | none => .ok (m, none)
  | some qq =>
    match MergeSort fuel m qq.head with
    | .error e => .error e
    | .ok (m1, h) => .ok (m1, some { qq with head := h })

/-! ## Reading the heap: chains of nodes -/

/-- `Seg m p l q`: following `next` from `p` visits exactly the live nodes at
the addresses `l`, in this order, and then arrives at `q`. -/
def Seg (m : Heap) : Ptr → List Nat → Ptr → Prop
  | p, [], q => p = q
  | p, a :: l, q => p = some a ∧ ∃ n, m a = some n ∧ Seg m n.next l q

/-- `Chain m p l`: the chain of nodes reachable from `p` is `l`, and it ends in
`NULL`. -/
def Chain (m : Heap) (p : Ptr) (l : List Nat) : Prop := Seg m p l none

/-- The string owned by the node at address `a`. -/
def valOf (m : Heap) (a : Nat) : List Nat :=
  match m a with
  | some n => n.value
  | none => []

/-- The `next` field of the node at address `a`. -/
def nextOf (m : Heap) (a : Nat) : Ptr :=
  match m a with
  | some n => n.next
  | none => none

/-- The data-model invariants of a queue whose chain of nodes is `l`: `l` is
reachable from `head` and ends in `NULL`, `size` is the number of nodes, and
`tail` is the last node (absent when there is none). -/
def Inv (m : Heap) (q : queue_t) (l : List Nat) : Prop :=
  Chain m q.head l ∧ q.size = (l.length : Int) ∧ q.tail = l.getLast?

/-- The comparison `SortedMerge` makes between two nodes, with the strings of
the nodes given by `key`. -/
def casecmp_lt (key : Nat → List Nat) (x y : Nat) : Bool :=
  decide (strcasecmp (key x) (key y) < 0)

/-- List-level counterpart of `MergeSort`: cut after the first `⌈n/2⌉` nodes,
sort both parts, merge them taking from the left part when its head compares
strictly smaller. -/
def msortL (key : Nat → List Nat) (l : List Nat) : List Nat :=
  if h : l.length < 2 then l
  else
    List.merge (msortL key (l.take ((l.length + 1) / 2)))
      (msortL key (l.drop ((l.length + 1) / 2))) (casecmp_lt key)
termination_by l.length
decreasing_by
  · simp only [List.length_take]; omega
  · simp only [List.length_drop]; omega

/-! ## Sequences of calls -/

/-- Calls `q_insert_tail` for each string, every allocation succeeding; the
second component of each item is the address `malloc` returns for the node.
Returns the results of the calls and the final state. -/
def insert_tail_all (m : Heap) (q : Option queue_t) :
    List (List Nat × Nat) → Except Err (List Bool × Heap × Option queue_t)
  | [] => .ok ([], m, q)
  | (s, p) :: rest =>
    match q_insert_tail m q s true (some p) with
    | .error e => .error e
    | .ok (r, m1, q1) =>
      match insert_tail_all m1 q1 rest with
      | .error e => .error e
      | .ok (rs, m2, q2) => .ok (r :: rs, m2, q2)

/-- Calls `q_insert_head` for each string, every allocation succeeding; the
second component of each item is the address `malloc` returns for the node. -/
def insert_head_all (m : Heap) (q : Option queue_t) :
    List (List Nat × Nat) → List Bool × Heap × Option queue_t
  | [] => ([], m, q)
  | (s, p) :: rest =>
    match q_insert_head m q s true (some p) with
    | (r, m1, q1) =>
      match insert_head_all m1 q1 rest with
      | (rs, m2, q2) => (r :: rs, m2, q2)

/-- Calls `q_remove_head` `n` times with the same buffer `sp` of `bufsize`
bytes.  Returns, for each call, its result and the string read from the buffer
after it, then the final state and buffer. -/
def remove_head_n (bufsize : Nat) :
    Nat → Heap → Option queue_t → List Nat →
      Except Err (List (Bool × List Nat) × Heap × Option queue_t × List Nat)
  | 0, m, q, sp => .ok ([], m, q, sp)
  | n + 1, m, q, sp =>
    match q_remove_head m q (some sp) bufsize with
    | .error e => .error e
    | .ok (r, m1, q1, sp1) =>
      let buf := sp1.getD sp
      match remove_head_n bufsize n m1 q1 buf with
      | .error e => .error e
      | .ok (rs, m2, q2, sp2) => .ok ((r, cstr buf) :: rs, m2, q2, sp2)

/-- The bytes of a string literal. -/
def bytes (s : String) : List Nat := s.toList.map Char.toNat

/-- Whether `Seg m p l q` holds can be computed by walking the heap. -/
instance Seg.instDecidable (m : Heap) : (l : List Nat) → (p q : Ptr) → Decidable (Seg m p l q)
  | [], p, q => inferInstanceAs (Decidable (p = q))
  | a :: l, p, q =>
    match h : m a with
    | none => isFalse (fun hs => by
        obtain ⟨_, n, hn, _⟩ := hs
        rw [h] at hn
        cases hn)
    | some n =>
      match Seg.instDecidable m l n.next q with
      | isTrue hrest =>
        if hp : p = some a then isTrue ⟨hp, n, h, hrest⟩
        else isFalse (fun hs => hp hs.1)
      | isFalse hrest => isFalse (fun hs => by
          obtain ⟨_, n1, hn1, h1⟩ := hs
          rw [h] at hn1
          cases hn1
          exact hrest h1)

instance Chain.instDecidable (m : Heap) (p : Ptr) (l : List Nat) : Decidable (Chain m p l) :=
  Seg.instDecidable m l p none

instance Inv.instDecidable (m : Heap) (q : queue_t) (l : List Nat) : Decidable (Inv m q l) :=
  inferInstanceAs (Decidable (_ ∧ _ ∧ _))

/-- The state after `q_new` and one `q_insert_tail` per item (string and node
address), every allocation succeeding, on a heap with no other node. -/
def tail_inserted (items : List (List Nat × Nat)) : Option (Heap × Option queue_t) :=
  match insert_tail_all Heap.empty (q_new true) items with
  | .ok (_, m, q) => some (m, q)
  | .error _ => none

/-- The state after `q_new` and one `q_insert_head` per item (string and node
address), every allocation succeeding, on a heap with no other node. -/
def head_inserted (items : List (List Nat × Nat)) : Option (Heap × Option queue_t) :=
  match insert_head_all Heap.empty (q_new true) items with
  | (_, m, q) => some (m, q)

/-- The state after a call of `q_sort` in the given state. -/
def after_sort (st : Option (Heap × Option queue_t)) (fuel : Nat) :
    Option (Heap × Option queue_t) :=
  match st with
  | none => none
  | some (m, q) =>
    match q_sort fuel m q with
    | .ok r => some r
    | .error _ => none

/-- The state after a call of `q_reverse` in the given state. -/
def after_reverse (st : Option (Heap × Option queue_t)) (fuel : Nat) :
    Option (Heap × Option queue_t) :=
  match st with
  | none => none
  | some (m, q) =>
    match q_reverse fuel m q with
    | .ok r => some r
    | .error _ => none

/-- The state after a successful `q_insert_tail` of `s`, the node being
allocated at address `p`, in the given state. -/
def after_insert_tail (st : Option (Heap × Option queue_t)) (s : List Nat) (p : Nat) :
    Option (Heap × Option queue_t) :=
  match st with
  | none => none
  | some (m, q) =>
    match q_insert_tail m q s true (some p) with
    | .ok (_, r) => some r
    | .error _ => none

/-- The state after a call of `q_remove_head` without buffer in the given
state. -/
def after_remove_head (st : Option (Heap × Option queue_t)) :
    Option (Heap × Option queue_t) :=
  match st with
  | none => none
  | some (m, q) =>
    match q_remove_head m q none 0 with
    | .ok (_, m1, q1, _) => some (m1, q1)
    | .error _ => none

/-- From a state, `n` calls of `q_remove_head` with a zeroed buffer of `bufsize`
bytes: the result of each call and the string it left in the buffer. -/
def drained (st : Option (Heap × Option queue_t)) (n bufsize : Nat) :
    Option (List (Bool × List Nat)) :=
  match st with
  | none => none
  | some (m, q) =>
    match remove_head_n bufsize n m q (List.replicate bufsize 0) with
    | .ok (rs, _) => some rs
    | .error _ => none

/-- The order "case-insensitive key first, and among equal keys the element with
the larger position first": `x` is placed before `y`. -/
def tie_desc (key : Nat → List Nat) (pos : Nat → Nat) (x y : Nat) : Prop :=
  strcasecmp (key x) (key y) < 0 ∨ (strcasecmp (key x) (key y) = 0 ∧ pos y < pos x)

/-- One call of the API, together with what the allocator answers during it
(for the insertions: whether the string allocation succeeds, and the result of
the node allocation). -/
inductive Call where
  | insert_head (s : List Nat) (news_ok : Bool) (newh : Ptr)
  | insert_tail (s : List Nat) (news_ok : Bool) (newt : Ptr)
  | remove_head (sp : Option (List Nat)) (bufsize : Nat)
  | reverse
  | sort
deriving DecidableEq, Repr

/-- What `malloc` can answer in the memory `m`: `NULL`, or an address that holds
no live node. -/
def alloc_fresh (m : Heap) (p : Ptr) : Bool :=
  match p with
  | none => true
  | some a => (m a).isNone

/-- Whether the allocator answers recorded in the call are possible in the
memory `m`. -/
def Call.possible (m : Heap) : Call → Bool
  | .insert_head _ _ newh => alloc_fresh m newh
  | .insert_tail _ _ newt => alloc_fresh m newt
  | _ => true

/-- The step budget given to `q_reverse` and `q_sort` in a sequence of calls:
one more than `size`. -/
def budget (q : Option queue_t) : Nat := (q_size q).toNat + 1

/-- Performs one call: the value returned (`true` for the functions that return
nothing) and the new state. -/
def perform (m : Heap) (q : Option queue_t) : Call → Except Err (Bool × Heap × Option queue_t)
  | .insert_head s news_ok newh => .ok (q_insert_head m q s news_ok newh)
  | .insert_tail s news_ok newt => q_insert_tail m q s news_ok newt
  | .remove_head sp bufsize =>
    match q_remove_head m q sp bufsize with
    | .error e => .error e
    | .ok (r, m1, q1, _) => .ok (r, m1, q1)
  | .reverse =>
    match q_reverse (budget q) m q with
    | .error e => .error e
    | .ok (m1, q1) => .ok (true, m1, q1)
  | .sort =>
    match q_sort (budget q) m q with
    | .error e => .error e
    | .ok (m1, q1) => .ok (true, m1, q1)

/-- Performs a sequence of calls: the values returned and the final state. -/
def run (m : Heap) (q : Option queue_t) :
    List Call → Except Err (List Bool × Heap × Option queue_t)
  | [] => .ok ([], m, q)
  | c :: cs =>
    match perform m q c with
    | .error e => .error e
    | .ok (r, m1, q1) =>
      match run m1 q1 cs with
      | .error e => .error e
      | .ok (rs, m2, q2) => .ok (r :: rs, m2, q2)

/-- Whether every allocator answer in the sequence is possible at the moment of
its call. -/
def possible_run (m : Heap) (q : Option queue_t) : List Call → Bool
  | [] => true
  | c :: cs =>
    c.possible m &&
      (match perform m q c with
      | .error _ => true
      | .ok (_, m1, q1) => possible_run m1 q1 cs)

/-- What a call adds to the number of elements: `1` for an insertion that
returned true, `-1` for a removal that returned true, `0` otherwise. -/
def Call.delta : Call → Bool → Int
  | .insert_head _ _ _, true => 1
  | .insert_tail _ _ _, true => 1
  | .remove_head _ _, true => -1
  | _, _ => 0

/-- The number of insertions that returned true minus the number of removals
that returned true, in a sequence of calls with the values they returned. -/
def net_count : List Call → List Bool → Int
  | c :: cs, r :: rs => c.delta r + net_count cs rs
  | _, _ => 0

/-- Whether the string `v` compares equal to `k` under `strcasecmp`. -/
def ties_with (k v : List Nat) : Bool := decide (strcasecmp v k = 0)

/-! ## The order induced by `strcasecmp` -/

theorem tolower_eq_zero (c : Nat) : tolower c = 0 ↔ c = 0 := by
  unfold tolower; split <;> omega

theorem strcasecmp_antisymm (a b : List Nat) : strcasecmp b a = - strcasecmp a b := by
  induction a generalizing b with
  | nil =>
    cases b with
    | nil => simp [strcasecmp]
    | cons y b => simp [strcasecmp]
  | cons x a ih =>
    cases b with
    | nil => simp [strcasecmp]
    | cons y b =>
      simp only [strcasecmp]
      by_cases hxy : tolower x = tolower y
      · have hyx : tolower y = tolower x := hxy.symm
        simp only [hxy, if_true]
        by_cases hx : x = 0
        · have hy : y = 0 := by
            have := (tolower_eq_zero x).2 hx
            exact (tolower_eq_zero y).1 (by omega)
          simp [hx, hy]
        · have hy : y ≠ 0 := by
            intro hy
            have := (tolower_eq_zero y).2 hy
            exact hx ((tolower_eq_zero x).1 (by omega))
          simp [hx, hy, ih]
      · have hyx : ¬ tolower y = tolower x := fun h => hxy h.symm
        simp [hxy, hyx]

theorem strcasecmp_trans (a b c : List Nat) (h1 : strcasecmp a b ≤ 0) (h2 : strcasecmp b c ≤ 0) :
    strcasecmp a c ≤ 0 := by
  induction a generalizing b c with
  | nil =>
    cases c with
    | nil => simp [strcasecmp]
    | cons z c =>
      have : tolower 0 = 0 := by decide
      simp only [strcasecmp]; omega
  | cons x a ih =>
    cases b with
    | nil =>
      have hx : tolower x = 0 := by
        simp only [strcasecmp] at h1
        have : tolower 0 = 0 := by decide
        omega
      have hx0 := (tolower_eq_zero x).1 hx
      subst hx0
      cases c with
      | nil => simp [strcasecmp]
      | cons z c =>
        simp only [strcasecmp]
        split
        · simp
        · omega
    | cons y b =>
      cases c with
      | nil =>
        simp only [strcasecmp] at h2
        have hy : tolower y = 0 := by
          have : tolower 0 = 0 := by decide
          omega
        have hy0 := (tolower_eq_zero y).1 hy
        subst hy0
        simp only [strcasecmp] at h1 ⊢
        have : tolower 0 = 0 := by decide
        split at h1
        · omega
        · omega
      | cons z c =>
        simp only [strcasecmp] at h1 h2 ⊢
        have t0 : tolower 0 = 0 := by decide
        by_cases hxy : tolower x = tolower y
        · by_cases hyz : tolower y = tolower z
          · have hxz : tolower x = tolower z := by omega
            simp only [hxy, hyz, hxz, if_true] at h1 h2 ⊢
            by_cases hx : x = 0
            · simp [hx]
            · have hy : y ≠ 0 := by
                intro hy; subst hy
                exact hx ((tolower_eq_zero x).1 (by omega))
              simp only [hx, hy, if_false] at h1 h2 ⊢
              exact ih b c h1 h2
          · have hxz : ¬ tolower x = tolower z := by omega
            simp only [hyz, hxz, if_false] at h2 ⊢
            omega
        · simp only [hxy, if_false] at h1
          by_cases hyz : tolower y = tolower z
          · have hxz : ¬ tolower x = tolower z := by omega
            simp only [hxz, if_false]
            omega
          · simp only [hyz, if_false] at h2
            have hxz : ¬ tolower x = tolower z := by omega
            simp only [hxz, if_false]
            omega

/-! ## Heap and chain lemmas -/

@[simp] theorem store_same (m : Heap) (p : Nat) (n : list_ele_t) : m.store p n p = some n := by
  simp [Heap.store]

theorem store_other (m : Heap) (p a : Nat) (n : list_ele_t) (h : a ≠ p) :
    m.store p n a = m a := by
  simp [Heap.store, h]

@[simp] theorem free_same (m : Heap) (p : Nat) : m.free p p = none := by
  simp [Heap.free]

theorem free_other (m : Heap) (p a : Nat) (h : a ≠ p) : m.free p a = m a := by
  simp [Heap.free, h]

@[simp] theorem seg_nil (m : Heap) (p q : Ptr) : Seg m p [] q ↔ p = q := Iff.rfl

@[simp] theorem seg_cons (m : Heap) (p q : Ptr) (a : Nat) (l : List Nat) :
    Seg m p (a :: l) q ↔ p = some a ∧ ∃ n, m a = some n ∧ Seg m n.next l q := Iff.rfl

@[simp] theorem chain_nil (m : Heap) (p : Ptr) : Chain m p [] ↔ p = none := Iff.rfl

theorem chain_cons (m : Heap) (p : Ptr) (a : Nat) (l : List Nat) :
    Chain m p (a :: l) ↔ p = some a ∧ ∃ n, m a = some n ∧ Chain m n.next l := Iff.rfl

/-- A segment only depends on the nodes it visits. -/
theorem seg_frame {m m1 : Heap} {l : List Nat} (h : ∀ a ∈ l, m1 a = m a) {p q : Ptr}
    (hs : Seg m p l q) : Seg m1 p l q := by
  induction l generalizing p with
  | nil => exact hs
  | cons a l ih =>
    obtain ⟨hp, n, hn, hrest⟩ := hs
    refine ⟨hp, n, ?_, ih (fun b hb => h b (List.mem_cons_of_mem _ hb)) hrest⟩
    rw [h a (List.mem_cons_self _ _)]; exact hn

theorem chain_frame {m m1 : Heap} {l : List Nat} (h : ∀ a ∈ l, m1 a = m a) {p : Ptr}
    (hs : Chain m p l) : Chain m1 p l := seg_frame h hs

theorem seg_append {m : Heap} {l1 l2 : List Nat} {p q : Ptr} :
    Seg m p (l1 ++ l2) q ↔ ∃ r, Seg m p l1 r ∧ Seg m r l2 q := by
  induction l1 generalizing p with
  | nil =>
    constructor
    · intro h; exact ⟨p, rfl, h⟩
    · rintro ⟨r, hr, h⟩
      have : p = r := hr
      subst this; exact h
  | cons a l ih =>
    constructor
    · rintro ⟨hp, n, hn, hrest⟩
      obtain ⟨r, h1, h2⟩ := ih.1 hrest
      exact ⟨r, ⟨hp, n, hn, h1⟩, h2⟩
    · rintro ⟨r, ⟨hp, n, hn, h1⟩, h2⟩
      exact ⟨hp, n, hn, ih.2 ⟨r, h1, h2⟩⟩

/-- The chain from a pointer is determined by the heap. -/
theorem chain_functional {m : Heap} {p : Ptr} {l1 l2 : List Nat}
    (h1 : Chain m p l1) (h2 : Chain m p l2) : l1 = l2 := by
  induction l1 generalizing p l2 with
  | nil =>
    cases l2 with
    | nil => rfl
    | cons b l2 =>
      have hp : p = none := h1
      obtain ⟨hb, _⟩ := h2
      rw [hp] at hb; cases hb
  | cons a l1 ih =>
    obtain ⟨hp, n, hn, hrest⟩ := h1
    cases l2 with
    | nil =>
      have hp2 : p = none := h2
      rw [hp2] at hp; cases hp
    | cons b l2 =>
      obtain ⟨hp2, n2, hn2, hrest2⟩ := h2
      rw [hp] at hp2
      cases hp2
      rw [hn] at hn2
      cases hn2
      rw [ih hrest hrest2]

theorem chain_head_not_mem {m : Heap} {p : Ptr} {a : Nat} {l : List Nat}
    (h : Chain m p (a :: l)) : a ∉ l := by
  intro ha
  obtain ⟨l1, l2, rfl⟩ := List.append_of_mem ha
  obtain ⟨hp, n, hn, hrest⟩ := h
  obtain ⟨r, _, h2⟩ := seg_append.1 hrest
  have hr : r = some a := h2.1
  subst hr
  have h3 : Chain m (some a) (a :: (l1 ++ a :: l2)) := ⟨rfl, n, hn, hrest⟩
  have := congrArg List.length (chain_functional h2 h3)
  simp at this
  omega

theorem chain_tail {m : Heap} {p : Ptr} {a : Nat} {l : List Nat}
    (h : Chain m p (a :: l)) : ∃ n, m a = some n ∧ Chain m n.next l := h.2

/-- A chain that ends in `NULL` visits no node twice. -/
theorem chain_nodup {m : Heap} {p : Ptr} {l : List Nat} (h : Chain m p l) : l.Nodup := by
  induction l generalizing p with
  | nil => exact List.nodup_nil
  | cons a l ih =>
    obtain ⟨n, _, hrest⟩ := chain_tail h
    exact List.nodup_cons.2 ⟨chain_head_not_mem h, ih hrest⟩

theorem chain_live {m : Heap} {p : Ptr} {l : List Nat} (h : Chain m p l) :
    ∀ a ∈ l, ∃ n, m a = some n := by
  induction l generalizing p with
  | nil => intro a ha; cases ha
  | cons b l ih =>
    obtain ⟨_, n, hn, hrest⟩ := h
    intro a ha
    rcases List.mem_cons.1 ha with rfl | ha
    · exact ⟨n, hn⟩
    · exact ih hrest a ha

theorem chain_head {m : Heap} {p : Ptr} {l : List Nat} (h : Chain m p l) : p = l.head? := by
  cases l with
  | nil => exact h
  | cons a l => exact h.1

/-! ## `SortedMerge` and `MergeSort` relink the chain as the list-level sort -/

theorem valOf_eq_of_map {m m1 : Heap} {x : Nat}
    (h : (m1 x).map list_ele_t.value = (m x).map list_ele_t.value) : valOf m1 x = valOf m x := by
  unfold valOf
  cases h1 : m1 x <;> cases h2 : m x <;> simp [h1, h2] at h ⊢
  exact h

theorem SortedMerge_null_left (fuel : Nat) (m : Heap) (b : Ptr) :
    SortedMerge fuel m none b = .ok (m, b) := by
  cases fuel <;> simp [SortedMerge]

theorem SortedMerge_null_right (fuel : Nat) (m : Heap) (a : Nat) :
    SortedMerge fuel m (some a) none = .ok (m, some a) := by
  cases fuel <;> simp [SortedMerge]

theorem SortedMerge_spec (fuel : Nat) : ∀ (m : Heap) (a b : Ptr) (la lb : List Nat),
    Chain m a la → Chain m b lb → (∀ x ∈ la, x ∉ lb) → la.length + lb.length ≤ fuel →
    ∃ m1 r, SortedMerge fuel m a b = .ok (m1, r) ∧
      Chain m1 r (List.merge la lb (casecmp_lt (valOf m))) ∧
      (∀ x, x ∉ la → x ∉ lb → m1 x = m x) ∧
      (∀ x, (m1 x).map list_ele_t.value = (m x).map list_ele_t.value) := by
  induction fuel with
  | zero =>
    intro m a b la lb ha hb _ hf
    have h1 : la = [] := List.eq_nil_of_length_eq_zero (by omega)
    subst h1
    have : a = none := ha
    subst this
    exact ⟨m, b, SortedMerge_null_left 0 m b, by simpa using hb, fun _ _ _ => rfl, fun _ => rfl⟩
  | succ fuel ih =>
    intro m a b la lb ha hb hd hf
    cases la with
    | nil =>
      have : a = none := ha
      subst this
      exact ⟨m, b, SortedMerge_null_left _ m b, by simpa using hb, fun _ _ _ => rfl, fun _ => rfl⟩
    | cons x la =>
      obtain ⟨hax, na, hna, hra⟩ := ha
      subst hax
      cases lb with
      | nil =>
        have : b = none := hb
        subst this
        refine ⟨m, some x, SortedMerge_null_right _ m x, ?_, fun _ _ _ => rfl, fun _ => rfl⟩
        rw [List.merge_right]
        exact ⟨rfl, na, hna, hra⟩
      | cons y lb =>
        obtain ⟨hby, nb, hnb, hrb⟩ := hb
        subst hby
        have hxla : x ∉ la := chain_head_not_mem (show Chain m (some x) (x :: la) from ⟨rfl, na, hna, hra⟩)
        have hylb : y ∉ lb := chain_head_not_mem (show Chain m (some y) (y :: lb) from ⟨rfl, nb, hnb, hrb⟩)
        have hxy : x ≠ y := fun h => hd x (List.mem_cons_self _ _) (h ▸ List.mem_cons_self _ _)
        have hxlb : x ∉ lb := fun h => hd x (List.mem_cons_self _ _) (List.mem_cons_of_mem _ h)
        have hyla : y ∉ la := fun h => hd y (List.mem_cons_of_mem _ h) (List.mem_cons_self _ _)
        have hvx : valOf m x = na.value := by simp [valOf, hna]
        have hvy : valOf m y = nb.value := by simp [valOf, hnb]
        simp only [SortedMerge, hna, hnb]
        by_cases hc : strcasecmp na.value nb.value < 0
        · have hlt : casecmp_lt (valOf m) x y = true := by simp [casecmp_lt, hvx, hvy, hc]
          simp only [hc, if_true]
          obtain ⟨m1, r, hrun, hch, hfr, hdat⟩ := ih m na.next (some y) la (y :: lb) hra
            ⟨rfl, nb, hnb, hrb⟩ (fun z hz => hd z (List.mem_cons_of_mem _ hz)) (by simp at hf ⊢; omega)
          have hm1x : m1 x = some na := by
            rw [hfr x hxla (by simp [hxy, hxlb]), hna]
          simp only [hrun, hm1x]
          refine ⟨_, _, rfl, ?_, ?_, ?_⟩
          · rw [List.cons_merge_cons_pos _ _ _ hlt]
            refine ⟨rfl, _, store_same _ _ _, ?_⟩
            refine chain_frame ?_ hch
            intro z hz
            have hz2 := List.mem_merge.1 hz
            have : z ≠ x := by
              rintro rfl
              rcases hz2 with h | h
              · exact hxla h
              · rcases List.mem_cons.1 h with h | h
                · exact hxy h
                · exact hxlb h
            exact store_other _ _ _ _ this
          · intro z hz1 hz2
            have hzx : z ≠ x := fun h => hz1 (h ▸ List.mem_cons_self _ _)
            rw [store_other _ _ _ _ hzx]
            exact hfr z (fun h => hz1 (List.mem_cons_of_mem _ h)) hz2
          · intro z
            by_cases hzx : z = x
            · subst hzx
              simp [hna]
            · rw [store_other _ _ _ _ hzx]; exact hdat z
        · have hlt : ¬ casecmp_lt (valOf m) x y = true := by simp [casecmp_lt, hvx, hvy, hc]
          simp only [hc, if_false]
          obtain ⟨m1, r, hrun, hch, hfr, hdat⟩ := ih m (some x) nb.next (x :: la) lb
            ⟨rfl, na, hna, hra⟩ hrb
            (fun z hz hz2 => hd z hz (List.mem_cons_of_mem _ hz2)) (by simp at hf ⊢; omega)
          have hm1y : m1 y = some nb := by
            rw [hfr y (by simp [Ne.symm hxy, hyla]) hylb, hnb]
          simp only [hrun, hm1y]
          refine ⟨_, _, rfl, ?_, ?_, ?_⟩
          · rw [List.cons_merge_cons_neg _ _ _ hlt]
            refine ⟨rfl, _, store_same _ _ _, ?_⟩
            refine chain_frame ?_ hch
            intro z hz
            have hz2 := List.mem_merge.1 hz
            have : z ≠ y := by
              rintro rfl
              rcases hz2 with h | h
              · rcases List.mem_cons.1 h with h | h
                · exact hxy h.symm
                · exact hyla h
              · exact hylb h
            exact store_other _ _ _ _ this
          · intro z hz1 hz2
            have hzy : z ≠ y := fun h => hz2 (h ▸ List.mem_cons_self _ _)
            rw [store_other _ _ _ _ hzy]
            exact hfr z hz1 (fun h => hz2 (List.mem_cons_of_mem _ h))
          · intro z
            by_cases hzy : z = y
            · subst hzy
              simp [hnb]
            · rw [store_other _ _ _ _ hzy]; exact hdat z

theorem msortL_short (key : Nat → List Nat) (l : List Nat) (h : l.length < 2) :
    msortL key l = l := by
  rw [msortL]; simp [h]

theorem msortL_long (key : Nat → List Nat) (l : List Nat) (h : ¬ l.length < 2) :
    msortL key l = List.merge (msortL key (l.take ((l.length + 1) / 2)))
      (msortL key (l.drop ((l.length + 1) / 2))) (casecmp_lt key) := by
  rw [msortL]; simp [h]

theorem msortL_perm (key : Nat → List Nat) : ∀ (n : Nat) (l : List Nat), l.length ≤ n →
    (msortL key l).Perm l := by
  intro n
  induction n with
  | zero =>
    intro l hl
    rw [msortL_short key l (by omega)]
  | succ n ih =>
    intro l hl
    by_cases h : l.length < 2
    · rw [msortL_short key l h]
    · rw [msortL_long key l h]
      have h1 := ih (l.take ((l.length + 1) / 2)) (by simp only [List.length_take]; omega)
      have h2 := ih (l.drop ((l.length + 1) / 2)) (by simp only [List.length_drop]; omega)
      refine (List.merge_perm_append _).trans ?_
      refine (List.Perm.append h1 h2).trans ?_
      rw [List.take_append_drop]

theorem mem_msortL {key : Nat → List Nat} {l : List Nat} {x : Nat} :
    x ∈ msortL key l ↔ x ∈ l :=
  (msortL_perm key l.length l (le_refl _)).mem_iff

theorem split_loop_null (fuel : Nat) (m : Heap) (slow : Ptr) :
    split_loop fuel m slow none = .ok slow := by
  cases fuel <;> simp [split_loop]

/-- The slow/fast walk stops with `slow` on node number `⌊|lf| / 2⌋` of the
chain it started on, `lf` being the chain `fast` started on. -/
theorem split_loop_spec (fuel : Nat) : ∀ (m : Heap) (slow fast : Ptr) (ls lf : List Nat),
    Chain m slow ls → Chain m fast lf → lf.length / 2 < ls.length →
    (lf.length + 1) / 2 ≤ fuel →
    split_loop fuel m slow fast = .ok (ls.get? (lf.length / 2)) := by
  induction fuel with
  | zero =>
    intro m slow fast ls lf hs hf _ hfu
    have : lf = [] := List.eq_nil_of_length_eq_zero (by omega)
    subst this
    have : fast = none := hf
    subst this
    rw [split_loop_null, chain_head hs]
    cases ls <;> rfl
  | succ fuel ih =>
    intro m slow fast ls lf hs hf hlen hfu
    cases lf with
    | nil =>
      have : fast = none := hf
      subst this
      rw [split_loop_null, chain_head hs]
      cases ls <;> rfl
    | cons f lf =>
      obtain ⟨hfast, nf, hnf, hrf⟩ := hf
      subst hfast
      cases lf with
      | nil =>
        have hnx : nf.next = none := hrf
        simp only [split_loop, hnf, hnx, split_loop_null]
        rw [chain_head hs]
        cases ls <;> simp
      | cons f1 lf =>
        obtain ⟨hnx, nf1, hnf1, hrf1⟩ := hrf
        cases ls with
        | nil => simp at hlen
        | cons s ls =>
          obtain ⟨hslow, ns, hns, hrs⟩ := hs
          subst hslow
          simp only [split_loop, hnf, hnx, load, hns, hnf1]
          rw [ih m ns.next nf1.next ls lf hrs hrf1 (by simp at hlen ⊢; omega)
            (by simp at hfu ⊢; omega)]
          have : (f :: f1 :: lf).length / 2 = lf.length / 2 + 1 := by
            simp only [List.length_cons]; omega
          rw [this]
          rfl

/-- Cutting a chain after the node `s`. -/
theorem chain_cut {m : Heap} {p : Ptr} {l1 l2 : List Nat} {s : Nat}
    (h : Chain m p (l1 ++ s :: l2)) :
    ∃ ns, m s = some ns ∧
      Chain (m.store s { ns with next := none }) p (l1 ++ [s]) ∧
      Chain (m.store s { ns with next := none }) ns.next l2 := by
  have hnd := chain_nodup h
  obtain ⟨r, h1, h2⟩ := seg_append.1 h
  obtain ⟨hr, ns, hns, hrest⟩ := h2
  subst hr
  have hs1 : s ∉ l1 := by
    intro hmem
    have := (List.nodup_append.1 hnd).2.2
    exact this hmem (List.mem_cons_self _ _)
  have hs2 : s ∉ l2 := chain_head_not_mem (show Chain m (some s) (s :: l2) from ⟨rfl, ns, hns, hrest⟩)
  refine ⟨ns, hns, ?_, ?_⟩
  · refine seg_append.2 ⟨some s, ?_, ?_⟩
    · exact seg_frame (fun a ha => store_other _ _ _ _ (fun h : a = s => hs1 (h ▸ ha))) h1
    · exact ⟨rfl, _, store_same _ _ _, rfl⟩
  · exact chain_frame (fun a ha => store_other _ _ _ _ (fun h : a = s => hs2 (h ▸ ha))) hrest

theorem valOf_funext {m m1 : Heap}
    (h : ∀ x, (m1 x).map list_ele_t.value = (m x).map list_ele_t.value) : valOf m1 = valOf m :=
  funext fun _ => valOf_eq_of_map (h _)

theorem list_cut_at (L : List Nat) (i : Nat) (h : i < L.length) :
    L = L.take i ++ L.get ⟨i, h⟩ :: L.drop (i + 1) := by
  rw [List.get_eq_getElem, ← List.drop_eq_getElem_cons h, List.take_append_drop]

theorem list_take_succ_get (L : List Nat) (i : Nat) (h : i < L.length) :
    L.take (i + 1) = L.take i ++ [L.get ⟨i, h⟩] := by
  rw [List.take_succ, List.get_eq_getElem, List.getElem?_eq_getElem h]; rfl

/-- On a chain `l` that ends in `NULL`, `MergeSort` returns (with a budget above
the length of the chain), relinks the nodes of `l` as `msortL` orders them,
leaves the other nodes alone and keeps every string. -/
theorem MergeSort_spec (fuel : Nat) : ∀ (m : Heap) (head : Ptr) (l : List Nat),
    Chain m head l → l.length < fuel →
    ∃ m1 r, MergeSort fuel m head = .ok (m1, r) ∧
      Chain m1 r (msortL (valOf m) l) ∧
      (∀ x, x ∉ l → m1 x = m x) ∧
      (∀ x, (m1 x).map list_ele_t.value = (m x).map list_ele_t.value) := by
  induction fuel with
  | zero => intro m head l _ hf; omega
  | succ fuel ih =>
    intro m head l hl hf
    cases l with
    | nil =>
      have : head = none := hl
      subst this
      exact ⟨m, none, by simp [MergeSort], by rw [msortL_short _ _ (by simp)]; rfl,
        fun _ _ => rfl, fun _ => rfl⟩
    | cons a l =>
      obtain ⟨hh, nh, hnh, hrest⟩ := hl
      subst hh
      cases l with
      | nil =>
        have hnx : nh.next = none := hrest
        refine ⟨m, some a, by simp [MergeSort, hnh, hnx], ?_, fun _ _ => rfl, fun _ => rfl⟩
        rw [msortL_short _ _ (by simp)]
        exact ⟨rfl, nh, hnh, hrest⟩
      | cons b l =>
        have hchain : Chain m (some a) (a :: b :: l) := ⟨rfl, nh, hnh, hrest⟩
        have hnx : nh.next ≠ none := by rw [hrest.1]; simp
        -- the walk
        have hwalk := split_loop_spec fuel m (some a) nh.next (a :: b :: l) (b :: l) hchain hrest
          (by simp only [List.length_cons]; omega) (by simp only [List.length_cons] at hf ⊢; omega)
        set L := a :: b :: l with hL
        set i := (b :: l).length / 2 with hi
        have hiL : i < L.length := by simp only [hL, hi, List.length_cons]; omega
        have hmid : (L.length + 1) / 2 = i + 1 := by
          simp only [hL, hi, List.length_cons]; omega
        have hget : L.get? i = some (L.get ⟨i, hiL⟩) := List.get?_eq_get hiL
        have hsplit : L = L.take i ++ L.get ⟨i, hiL⟩ :: L.drop (i + 1) := list_cut_at L i hiL
        have htake : L.take (i + 1) = L.take i ++ [L.get ⟨i, hiL⟩] := list_take_succ_get L i hiL
        set s := L.get ⟨i, hiL⟩ with hs
        have hcut : Chain m (some a) (L.take i ++ s :: L.drop (i + 1)) := by
          rw [← hsplit]; exact hchain
        obtain ⟨ns, hns, hfront, hback⟩ := chain_cut hcut
        rw [← htake] at hfront
        have hnd : L.Nodup := chain_nodup hchain
        have hdisj : ∀ x ∈ L.take (i + 1), x ∉ L.drop (i + 1) := by
          have := hnd
          rw [← List.take_append_drop (i + 1) L] at this
          exact fun x hx1 hx2 => (List.nodup_append.1 this).2.2 hx1 hx2
        have hlenf : (L.take (i + 1)).length < fuel := by
          simp only [List.length_take, hL, hi, List.length_cons] at hf ⊢; omega
        have hlenb : (L.drop (i + 1)).length < fuel := by
          simp only [List.length_drop, hL, hi, List.length_cons] at hf ⊢; omega
        -- first recursive call
        obtain ⟨m2, a1, hrun1, hch1, hfr1, hdat1⟩ := ih _ (some a) _ hfront hlenf
        have hback2 : Chain m2 ns.next (L.drop (i + 1)) :=
          chain_frame (fun x hx => hfr1 x (fun h => hdisj x h hx)) hback
        -- second recursive call
        obtain ⟨m3, b1, hrun2, hch2, hfr2, hdat2⟩ := ih _ ns.next _ hback2 hlenb
        have hch1' : Chain m3 a1 (msortL (valOf (m.store s { ns with next := none })) (L.take (i + 1))) :=
          chain_frame (fun x hx => hfr2 x (fun h => hdisj x (mem_msortL.1 hx) h)) hch1
        -- the merge
        have hlen : (msortL (valOf (m.store s { ns with next := none })) (L.take (i + 1))).length
            + (msortL (valOf m2) (L.drop (i + 1))).length ≤ fuel := by
          rw [(msortL_perm _ _ _ (le_refl _)).length_eq, (msortL_perm _ _ _ (le_refl _)).length_eq]
          simp only [List.length_take, List.length_drop, hL, hi, List.length_cons] at hf ⊢; omega
        obtain ⟨m4, r, hrun3, hch3, hfr3, hdat3⟩ := SortedMerge_spec fuel m3 a1 b1 _ _ hch1' hch2
          (fun x hx hx2 => hdisj x (mem_msortL.1 hx) (mem_msortL.1 hx2)) hlen
        have hdat0 : ∀ x, ((m.store s { ns with next := none }) x).map list_ele_t.value
            = (m x).map list_ele_t.value := by
          intro x
          by_cases hx : x = s
          · subst hx; simp [hns]
          · rw [store_other _ _ _ _ hx]
        have hv1 : valOf (m.store s { ns with next := none }) = valOf m := valOf_funext hdat0
        have hv2 : valOf m2 = valOf m := by
          rw [← hv1]; exact valOf_funext hdat1
        have hv3 : valOf m3 = valOf m := by
          rw [← hv2]; exact valOf_funext hdat2
        rw [hv1, hv2, hv3] at hch3
        refine ⟨m4, r, ?_, ?_, ?_, ?_⟩
        · simp only [MergeSort, hnh, hnx, if_false, hwalk, hget, hns, hrun1, hrun2, hrun3]
        · rw [msortL_long _ _ (by simp only [hL, List.length_cons]; omega), hmid]
          exact hch3
        · intro x hx
          have hx1 : x ∉ L.take (i + 1) := fun h => hx (List.mem_of_mem_take h)
          have hx2 : x ∉ L.drop (i + 1) := fun h => hx (List.mem_of_mem_drop h)
          rw [hfr3 x (fun h => hx1 (mem_msortL.1 h)) (fun h => hx2 (mem_msortL.1 h)),
            hfr2 x hx2, hfr1 x hx1]
          refine store_other _ _ _ _ ?_
          rintro rfl
          exact hx (List.get_mem _ _ _)
        · intro x
          rw [hdat3, hdat2, hdat1, hdat0]

/-! ## Properties of the list-level sort -/

theorem merge_casecmp_sorted (key : Nat → List Nat) : ∀ (la lb : List Nat),
    la.Pairwise (fun a b => strcasecmp (key a) (key b) ≤ 0) →
    lb.Pairwise (fun a b => strcasecmp (key a) (key b) ≤ 0) →
    (List.merge la lb (casecmp_lt key)).Pairwise (fun a b => strcasecmp (key a) (key b) ≤ 0) := by
  intro la
  induction la with
  | nil => intro lb _ hb; simpa using hb
  | cons x la iha =>
    intro lb
    induction lb with
    | nil => intro ha _; simpa using ha
    | cons y lb ihb =>
      intro ha hb
      have hxa := (List.pairwise_cons.1 ha).1
      have hyb := (List.pairwise_cons.1 hb).1
      by_cases hc : casecmp_lt key x y = true
      · rw [List.cons_merge_cons_pos _ _ _ hc]
        have hxy : strcasecmp (key x) (key y) ≤ 0 := by
          have : strcasecmp (key x) (key y) < 0 := by simpa [casecmp_lt] using hc
          omega
        refine List.pairwise_cons.2 ⟨?_, iha (y :: lb) (List.pairwise_cons.1 ha).2 hb⟩
        intro z hz
        rcases List.mem_merge.1 hz with h | h
        · exact hxa z h
        · rcases List.mem_cons.1 h with h | h
          · rw [h]; exact hxy
          · exact strcasecmp_trans _ _ _ hxy (hyb z h)
      · rw [List.cons_merge_cons_neg _ _ _ hc]
        have hyx : strcasecmp (key y) (key x) ≤ 0 := by
          have : ¬ strcasecmp (key x) (key y) < 0 := by simpa [casecmp_lt] using hc
          rw [strcasecmp_antisymm]; omega
        refine List.pairwise_cons.2 ⟨?_, ihb ha (List.pairwise_cons.1 hb).2⟩
        intro z hz
        rcases List.mem_merge.1 hz with h | h
        · rcases List.mem_cons.1 h with h | h
          · rw [h]; exact hyx
          · exact strcasecmp_trans _ _ _ hyx (hxa z h)
        · exact hyb z h

theorem msortL_sorted (key : Nat → List Nat) : ∀ (n : Nat) (l : List Nat), l.length ≤ n →
    (msortL key l).Pairwise (fun a b => strcasecmp (key a) (key b) ≤ 0) := by
  intro n
  induction n with
  | zero =>
    intro l hl
    have : l = [] := List.eq_nil_of_length_eq_zero (by omega)
    subst this
    rw [msortL_short key [] (by simp)]
    exact List.Pairwise.nil
  | succ n ih =>
    intro l hl
    by_cases h : l.length < 2
    · rw [msortL_short key l h]
      match l, h with
      | [], _ => exact List.Pairwise.nil
      | [a], _ => exact List.pairwise_singleton _ _
      | _ :: _ :: _, h => simp only [List.length_cons] at h; omega
    · rw [msortL_long key l h]
      exact merge_casecmp_sorted key _ _
        (ih _ (by simp only [List.length_take]; omega))
        (ih _ (by simp only [List.length_drop]; omega))

/-! ## Sorting: the claims -/

theorem q_sort_run (m : Heap) (q : queue_t) (l : List Nat) (fuel : Nat)
    (h : Chain m q.head l) (hf : l.length < fuel) :
    ∃ m1 r, q_sort fuel m (some q) = .ok (m1, some { q with head := r }) ∧
      Chain m1 r (msortL (valOf m) l) ∧
      (∀ x, x ∉ l → m1 x = m x) ∧
      (∀ x, (m1 x).map list_ele_t.value = (m x).map list_ele_t.value) := by
  obtain ⟨m1, r, hrun, hch, hfr, hdat⟩ := MergeSort_spec fuel m q.head l h hf
  exact ⟨m1, r, by simp only [q_sort, hrun], hch, hfr, hdat⟩

/-- C1: on a queue whose chain from `head` ends in `NULL` (in particular one that
satisfies the data-model invariants), `q_sort` returns, and the values read from
`head` afterwards are in non-decreasing case-insensitive order: every adjacent
pair `(a, b)` has `strcasecmp a b ≤ 0`. -/
theorem q_sort_sorted (m : Heap) (q : queue_t) (l : List Nat) (fuel : Nat)
    (h : Chain m q.head l) (hf : l.length < fuel) :
    ∃ m1 q1 l1, q_sort fuel m (some q) = .ok (m1, some q1) ∧ Chain m1 q1.head l1 ∧
      l1.length = l.length ∧
      List.Chain' (fun a b => strcasecmp a b ≤ 0) (l1.map (valOf m1)) := by
  obtain ⟨m1, r, hrun, hch, _, hdat⟩ := q_sort_run m q l fuel h hf
  refine ⟨m1, _, _, hrun, hch, (msortL_perm _ _ _ (le_refl _)).length_eq, ?_⟩
  apply List.Pairwise.chain'
  rw [List.pairwise_map, valOf_funext hdat]
  exact msortL_sorted (valOf m) _ l (le_refl _)

/-- C1, example of the claim: after `insert_tail` of "banana", "Apple", "cherry"
the chain is sorted by `q_sort`, and three `remove_head` calls then yield
"Apple", "banana", "cherry". -/
theorem q_sort_sorted_witness :
    ∃ m, tail_inserted [(bytes "banana", 1), (bytes "Apple", 2), (bytes "cherry", 3)]
        = some (m, some ⟨some 1, some 3, 3⟩) ∧
      Chain m (some 1) [1, 2, 3] ∧
      (∃ m1 q1 l1, q_sort 4 m (some ⟨some 1, some 3, 3⟩) = .ok (m1, some q1) ∧
        Chain m1 q1.head l1 ∧ l1.length = [1, 2, 3].length ∧
        List.Chain' (fun a b => strcasecmp a b ≤ 0) (l1.map (valOf m1))) ∧
      drained (after_sort (tail_inserted [(bytes "banana", 1), (bytes "Apple", 2), (bytes "cherry", 3)]) 4) 3 16
        = some [(true, bytes "Apple"), (true, bytes "banana"), (true, bytes "cherry")] :=
  ⟨_, rfl, by decide, q_sort_sorted _ ⟨some 1, some 3, 3⟩ [1, 2, 3] 4 (by decide) (by decide),
    by decide⟩

/-- C2: `q_sort` only rearranges the existing nodes: the chain from `head` after
it is a permutation of the chain before it, the strings read along it are a
permutation of the strings before, and every address holds a node after the
call exactly when it did before, with the same string (nothing is allocated,
freed or overwritten). -/
theorem q_sort_perm (m : Heap) (q : queue_t) (l : List Nat) (fuel : Nat)
    (h : Chain m q.head l) (hf : l.length < fuel) :
    ∃ m1 q1 l1, q_sort fuel m (some q) = .ok (m1, some q1) ∧ Chain m1 q1.head l1 ∧
      l1.Perm l ∧ (l1.map (valOf m1)).Perm (l.map (valOf m)) ∧
      (∀ a, (m1 a).map list_ele_t.value = (m a).map list_ele_t.value) ∧
      (∀ a, a ∉ l → m1 a = m a) := by
  obtain ⟨m1, r, hrun, hch, hfr, hdat⟩ := q_sort_run m q l fuel h hf
  have hp := msortL_perm (valOf m) _ l (le_refl _)
  refine ⟨m1, _, _, hrun, hch, hp, ?_, hdat, hfr⟩
  rw [valOf_funext hdat]
  exact hp.map _

/-- C2, at the chain node 1 ("b"), node 2 ("a"). -/
theorem q_sort_perm_witness :
    Chain (Heap.empty.store 2 ⟨bytes "a", none⟩ |>.store 1 ⟨bytes "b", some 2⟩) (some 1) [1, 2] ∧
    ∃ m1 q1 l1, q_sort 3 (Heap.empty.store 2 ⟨bytes "a", none⟩ |>.store 1 ⟨bytes "b", some 2⟩)
        (some ⟨some 1, some 2, 2⟩) = .ok (m1, some q1) ∧ Chain m1 q1.head l1 ∧
      l1.Perm [1, 2] ∧
      (l1.map (valOf m1)).Perm ([1, 2].map
        (valOf (Heap.empty.store 2 ⟨bytes "a", none⟩ |>.store 1 ⟨bytes "b", some 2⟩))) ∧
      (∀ a, (m1 a).map list_ele_t.value
        = ((Heap.empty.store 2 ⟨bytes "a", none⟩ |>.store 1 ⟨bytes "b", some 2⟩) a).map
            list_ele_t.value) ∧
      (∀ a, a ∉ [1, 2] →
        m1 a = (Heap.empty.store 2 ⟨bytes "a", none⟩ |>.store 1 ⟨bytes "b", some 2⟩) a) :=
  ⟨by decide, q_sort_perm _ ⟨some 1, some 2, 2⟩ [1, 2] 3 (by decide) (by decide)⟩

/-- C3, counterexample to stability: "a" is inserted before "A" (`strcasecmp`
gives 0); before `q_sort` two `remove_head` calls yield "a" and then "A", after
`q_sort` they yield "A" and then "a": the relative order of the two equal
elements is not kept. -/
theorem q_sort_not_stable_example :
    strcasecmp (bytes "a") (bytes "A") = 0 ∧
    drained (tail_inserted [(bytes "a", 1), (bytes "A", 2)]) 2 8
      = some [(true, bytes "a"), (true, bytes "A")] ∧
    drained (after_sort (tail_inserted [(bytes "a", 1), (bytes "A", 2)]) 3) 2 8
      = some [(true, bytes "A"), (true, bytes "a")] := by
  decide

/-- C4: the code leaves `tail` stale.  After `insert_tail` of "b" (node 1) and
"a" (node 2) the invariants hold with `tail` on node 2; after `q_sort` the chain
is node 2 then node 1, and `tail` is still node 2: the first node, whose `next`
is node 1, not the last node of the chain.  A following `q_insert_tail` of "c"
(node 3) links the new node behind node 2: the chain from `head` is then node 2,
node 3, node 1 is lost and `size` is 3. -/
theorem q_sort_stale_tail_example :
    (∃ m, tail_inserted [(bytes "b", 1), (bytes "a", 2)] = some (m, some ⟨some 1, some 2, 2⟩) ∧
      Inv m ⟨some 1, some 2, 2⟩ [1, 2]) ∧
    (∃ m1, after_sort (tail_inserted [(bytes "b", 1), (bytes "a", 2)]) 3
        = some (m1, some ⟨some 2, some 2, 2⟩) ∧
      Chain m1 (some 2) [2, 1] ∧ nextOf m1 2 = some 1 ∧ nextOf m1 1 = none ∧
      ¬ Inv m1 ⟨some 2, some 2, 2⟩ [2, 1]) ∧
    (∃ m2, after_insert_tail (after_sort (tail_inserted [(bytes "b", 1), (bytes "a", 2)]) 3)
        (bytes "c") 3 = some (m2, some ⟨some 2, some 3, 3⟩) ∧
      Chain m2 (some 2) [2, 3]) :=
  ⟨⟨_, rfl, by decide⟩, ⟨_, rfl, by decide, by decide, by decide, by decide⟩,
    ⟨_, rfl, by decide⟩⟩

/-! ## Reversal -/

theorem q_reverse_loop_null (fuel : Nat) (m : Heap) (cursor node_tail : Ptr) :
    q_reverse_loop fuel m cursor none node_tail = .ok (m, cursor, node_tail) := by
  cases fuel <;> simp [q_reverse_loop]

/-- The loop of `q_reverse`: with `rest` still to visit and `done` already
relinked behind `cursor`, it ends with the chain `rest.reverse ++ done`;
`node_tail` is overwritten exactly when the loop starts with `cursor = NULL` on
a non-empty chain, by the first node visited. -/
theorem q_reverse_loop_spec : ∀ (rest : List Nat) (fuel : Nat) (m : Heap)
    (cursor node_head node_tail : Ptr) (done : List Nat),
    Chain m node_head rest → Chain m cursor done → (∀ x ∈ rest, x ∉ done) →
    rest.length ≤ fuel →
    ∃ m1 r, q_reverse_loop fuel m cursor node_head node_tail
        = .ok (m1, r, if done = [] then (rest.head?.orElse fun _ => node_tail) else node_tail) ∧
      Chain m1 r (rest.reverse ++ done) ∧
      (∀ x, x ∉ rest → m1 x = m x) ∧
      (∀ x, (m1 x).map list_ele_t.value = (m x).map list_ele_t.value) := by
  intro rest
  induction rest with
  | nil =>
    intro fuel m cursor node_head node_tail done hr hd _ _
    have : node_head = none := hr
    subst this
    refine ⟨m, cursor, ?_, by simpa using hd, fun _ _ => rfl, fun _ => rfl⟩
    rw [q_reverse_loop_null]
    simp
  | cons a rest ih =>
    intro fuel m cursor node_head node_tail done hr hd hdisj hf
    obtain ⟨hh, n, hn, hrest⟩ := hr
    subst hh
    cases fuel with
    | zero => simp at hf
    | succ fuel =>
      have ha_rest : a ∉ rest :=
        chain_head_not_mem (show Chain m (some a) (a :: rest) from ⟨rfl, n, hn, hrest⟩)
      have ha_done : a ∉ done := hdisj a (List.mem_cons_self _ _)
      have hrest1 : Chain (m.store a { n with next := cursor }) n.next rest :=
        chain_frame (fun x hx => store_other _ _ _ _ (fun h : x = a => ha_rest (h ▸ hx))) hrest
      have hdone1 : Chain (m.store a { n with next := cursor }) (some a) (a :: done) :=
        ⟨rfl, _, store_same _ _ _,
          chain_frame (fun x hx => store_other _ _ _ _ (fun h : x = a => ha_done (h ▸ hx))) hd⟩
      obtain ⟨m1, r, hrun, hch, hfr, hdat⟩ := ih fuel _ (some a) n.next
        (if cursor = none then some a else node_tail) (a :: done) hrest1 hdone1
        (fun x hx hx2 => by
          rcases List.mem_cons.1 hx2 with h | h
          · exact ha_rest (h ▸ hx)
          · exact hdisj x (List.mem_cons_of_mem _ hx) h)
        (by simp at hf ⊢; omega)
      refine ⟨m1, r, ?_, ?_, ?_, ?_⟩
      · simp only [q_reverse_loop, hn, load, store_same, hrun]
        have hc : cursor = none ↔ done = [] := by
          rw [chain_head hd]
          cases done <;> simp
        by_cases hdn : done = []
        · simp [hdn, hc.2 hdn]
        · have : cursor ≠ none := fun h => hdn (hc.1 h)
          simp [hdn, this]
      · simpa using hch
      · intro x hx
        have hxa : x ≠ a := fun h => hx (h ▸ List.mem_cons_self _ _)
        rw [hfr x (fun h => hx (List.mem_cons_of_mem _ h)), store_other _ _ _ _ hxa]
      · intro x
        rw [hdat]
        by_cases hxa : x = a
        · subst hxa; simp [hn]
        · rw [store_other _ _ _ _ hxa]

theorem nextOf_last {m : Heap} {p : Ptr} {l : List Nat} (h : Chain m p l) :
    ∀ t, l.getLast? = some t → nextOf m t = none := by
  induction l generalizing p with
  | nil => intro t ht; simp at ht
  | cons a l ih =>
    obtain ⟨_, n, hn, hrest⟩ := h
    intro t ht
    cases l with
    | nil =>
      simp at ht
      subst ht
      have : n.next = none := hrest
      simp [nextOf, hn, this]
    | cons b l =>
      rw [List.getLast?_cons_cons] at ht
      exact ih hrest t ht

/-- What `q_reverse` does on a queue that satisfies the invariants. -/
theorem q_reverse_run (m : Heap) (q : queue_t) (l : List Nat) (fuel : Nat)
    (h : Inv m q l) (hf : l.length ≤ fuel) :
    ∃ m1, q_reverse fuel m (some q)
        = .ok (m1, some { q with head := q.tail, tail := q.head }) ∧
      Inv m1 { q with head := q.tail, tail := q.head } l.reverse ∧
      (∀ x, x ∉ l → m1 x = m x) ∧
      (∀ x, (m1 x).map list_ele_t.value = (m x).map list_ele_t.value) := by
  obtain ⟨hch, hsize, htail⟩ := h
  obtain ⟨m1, r, hrun, hch1, hfr, hdat⟩ := q_reverse_loop_spec l fuel m none q.head q.tail []
    hch rfl (fun _ _ h => by cases h) hf
  simp only [List.append_nil, if_true] at hrun hch1
  have hr : r = q.tail := by
    rw [chain_head hch1, htail, List.head?_reverse]
  have ht : (l.head?.orElse fun _ => q.tail) = q.head := by
    rw [chain_head hch]
    cases l with
    | nil => simpa using htail
    | cons a l => rfl
  rw [ht] at hrun
  subst hr
  refine ⟨m1, by simp only [q_reverse, hrun], ⟨hch1, ?_, ?_⟩, hfr, hdat⟩
  · simpa using hsize
  · show q.head = l.reverse.getLast?
    rw [List.getLast?_reverse, chain_head hch]

theorem chain_heap_eq {m m2 : Heap} {l : List Nat} :
    ∀ {p : Ptr}, Chain m p l → Chain m2 p l →
    (∀ x, (m2 x).map list_ele_t.value = (m x).map list_ele_t.value) →
    ∀ x ∈ l, m2 x = m x := by
  induction l with
  | nil => intro p _ _ _ x hx; cases hx
  | cons a l ih =>
    intro p h1 h2 hv x hx
    obtain ⟨_, n, hn, hrest⟩ := h1
    obtain ⟨_, n2, hn2, hrest2⟩ := h2
    have hnext : n2.next = n.next := by rw [chain_head hrest, chain_head hrest2]
    rcases List.mem_cons.1 hx with rfl | hx
    · have hval := hv x
      rw [hn, hn2] at hval
      simp only [Option.map_some', Option.some.injEq] at hval
      rw [hn, hn2]
      cases n; cases n2
      simp only [list_ele_t.mk.injEq, Option.some.injEq] at hval hnext ⊢
      exact ⟨hval, hnext⟩
    · rw [hnext] at hrest2
      exact ih hrest hrest2 hv x hx

/-- C5: `q_reverse` on a queue that satisfies the data-model invariants, with
chain `l`.  An absent queue and an empty queue are left as they are.  On a
non-empty queue the call returns, the chain from `head` is afterwards the exact
reverse of the chain before, the new `head` is the old `tail`, the new `tail` is
the old `head` and its `next` is absent; `size`, the strings and all other nodes
are untouched and the invariants hold again. -/
theorem q_reverse_spec (m : Heap) (q : queue_t) (l : List Nat) (fuel : Nat)
    (h : Inv m q l) (hf : l.length ≤ fuel) :
    q_reverse fuel m none = .ok (m, none) ∧
    (l = [] → q_reverse fuel m (some q) = .ok (m, some q)) ∧
    (l ≠ [] → ∃ m1 q1, q_reverse fuel m (some q) = .ok (m1, some q1) ∧
      Chain m1 q1.head l.reverse ∧ q1.head = q.tail ∧ q1.tail = q.head ∧
      (∃ t, q1.tail = some t ∧ nextOf m1 t = none) ∧ q1.size = q.size ∧
      Inv m1 q1 l.reverse ∧
      (∀ a, (m1 a).map list_ele_t.value = (m a).map list_ele_t.value) ∧
      (∀ a, a ∉ l → m1 a = m a)) := by
  refine ⟨rfl, ?_, ?_⟩
  · intro hl
    subst hl
    have hh : q.head = none := h.1
    simp only [q_reverse, hh, q_reverse_loop_null]
    cases q
    simp only at hh
    subst hh
    rfl
  · intro hl
    obtain ⟨m1, hrun, hinv, hfr, hdat⟩ := q_reverse_run m q l fuel h hf
    refine ⟨m1, _, hrun, hinv.1, rfl, rfl, ?_, rfl, hinv, hdat, hfr⟩
    obtain ⟨a, l2, rfl⟩ := List.exists_cons_of_ne_nil hl
    refine ⟨a, h.1.1, nextOf_last hinv.1 a ?_⟩
    simp

/-- C5, example of the claim: after `insert_head` of "a", "b", "c" the queue
satisfies the invariants with chain 3, 2, 1; `q_reverse` does what the claim
says there, and three `remove_head` calls then yield "a", "b", "c". -/
theorem q_reverse_spec_witness :
    ∃ m, head_inserted [(bytes "a", 1), (bytes "b", 2), (bytes "c", 3)]
        = some (m, some ⟨some 3, some 1, 3⟩) ∧
      Inv m ⟨some 3, some 1, 3⟩ [3, 2, 1] ∧
      (∃ m1 q1, q_reverse 3 m (some ⟨some 3, some 1, 3⟩) = .ok (m1, some q1) ∧
        Chain m1 q1.head [3, 2, 1].reverse ∧ q1.head = some 1 ∧ q1.tail = some 3 ∧
        (∃ t, q1.tail = some t ∧ nextOf m1 t = none) ∧ q1.size = 3 ∧
        Inv m1 q1 [3, 2, 1].reverse ∧
        (∀ a, (m1 a).map list_ele_t.value = (m a).map list_ele_t.value) ∧
        (∀ a, a ∉ [3, 2, 1] → m1 a = m a)) ∧
      drained (after_reverse
          (head_inserted [(bytes "a", 1), (bytes "b", 2), (bytes "c", 3)]) 3) 3 8
        = some [(true, bytes "a"), (true, bytes "b"), (true, bytes "c")] :=
  ⟨_, rfl, by decide,
    (q_reverse_spec _ ⟨some 3, some 1, 3⟩ [3, 2, 1] 3 (by decide) (by decide)).2.2 (by decide),
    by decide⟩

/-- C6: `q_reverse` is its own inverse.  On a queue that satisfies the
data-model invariants both calls return, and after the second one the queue
record (`head`, `tail`, `size`), the chain from `head` and the whole node memory
are what they were before the first. -/
theorem q_reverse_twice (m : Heap) (q : queue_t) (l : List Nat) (fuel : Nat)
    (h : Inv m q l) (hf : l.length ≤ fuel) :
    ∃ m1 q1 m2, q_reverse fuel m (some q) = .ok (m1, some q1) ∧
      q_reverse fuel m1 (some q1) = .ok (m2, some q) ∧
      Chain m2 q.head l ∧ m2 = m := by
  obtain ⟨m1, hrun1, hinv1, hfr1, hdat1⟩ := q_reverse_run m q l fuel h hf
  obtain ⟨m2, hrun2, hinv2, hfr2, hdat2⟩ := q_reverse_run m1 _ l.reverse fuel hinv1
    (by simpa using hf)
  have hch2 : Chain m2 q.head l := by simpa using hinv2.1
  refine ⟨m1, _, m2, hrun1, hrun2, hch2, ?_⟩
  funext x
  by_cases hx : x ∈ l
  · exact chain_heap_eq h.1 hch2 (fun y => by rw [hdat2, hdat1]) x hx
  · rw [hfr2 x (by simpa using hx), hfr1 x hx]

/-- C6, at the queue built by `insert_head` of "a", "b", "c". -/
theorem q_reverse_twice_witness :
    ∃ m, head_inserted [(bytes "a", 1), (bytes "b", 2), (bytes "c", 3)]
        = some (m, some ⟨some 3, some 1, 3⟩) ∧
      Inv m ⟨some 3, some 1, 3⟩ [3, 2, 1] ∧
      ∃ m1 q1 m2, q_reverse 3 m (some ⟨some 3, some 1, 3⟩) = .ok (m1, some q1) ∧
        q_reverse 3 m1 (some q1) = .ok (m2, some ⟨some 3, some 1, 3⟩) ∧
        Chain m2 (some 3) [3, 2, 1] ∧ m2 = m :=
  ⟨_, rfl, by decide, q_reverse_twice _ ⟨some 3, some 1, 3⟩ [3, 2, 1] 3 (by decide) (by decide)⟩

/-! ## Removal and the copy into the caller's buffer -/

theorem cstr_no_nul (s : List Nat) : ∀ x ∈ cstr s, x ≠ 0 := by
  intro x hx
  have := List.mem_takeWhile_imp hx
  simpa using this

theorem cstr_append_nul (c rest : List Nat) (hc : ∀ x ∈ c, x ≠ 0) :
    cstr (c ++ 0 :: rest) = c := by
  unfold cstr
  rw [List.takeWhile_append_of_pos (by intro a ha; simpa using hc a ha)]
  simp

/-- `size_t_dec` is subtraction of 1 modulo `2^64`. -/
theorem size_t_dec_mod (n : Nat) : size_t_dec n = (n + 2 ^ 64 - 1) % 2 ^ 64 := by
  unfold size_t_dec
  split <;> omega

theorem size_t_dec_eq (bufsize : Nat) (h1 : 1 ≤ bufsize) (h2 : bufsize < 2 ^ 64) :
    size_t_dec bufsize = bufsize - 1 := by
  rw [size_t_dec_mod]
  omega

/-- The buffer after `strncpy(sp, v, k); sp[k] = 0`: the first `min (strlen v) k`
bytes of the string, a NUL, and then some bytes. -/
theorem copy_out_shape (buf v : List Nat) (k : Nat) (hk : k < buf.length) :
    ∃ rest, (((cstr v ++ List.replicate k 0).take k ++ buf.drop k).set k 0)
      = (cstr v).take (min (strlen v) k) ++ 0 :: rest := by
  unfold strlen
  by_cases hL : k ≤ (cstr v).length
  · rw [List.take_append_of_le_length hL, Nat.min_eq_right hL]
    have hlen : (List.take k (cstr v)).length = k := by
      rw [List.length_take]; omega
    rw [List.set_append_right _ _ (by omega), hlen, Nat.sub_self]
    cases hd : buf.drop k with
    | nil =>
      have := congrArg List.length hd
      rw [List.length_drop] at this
      simp only [List.length_nil] at this
      omega
    | cons b rest => exact ⟨rest, rfl⟩
  · have hL2 : (cstr v).length < k := by omega
    rw [List.take_append_eq_append_take, List.take_of_length_le (by omega), List.take_replicate,
      Nat.min_eq_left (by omega), Nat.min_eq_left (by omega)]
    rw [List.append_assoc, List.set_append_right _ _ (by omega)]
    obtain ⟨d, hd⟩ : ∃ d, k - (cstr v).length = d + 1 := ⟨k - (cstr v).length - 1, by omega⟩
    rw [hd, List.replicate_succ, List.cons_append, List.set_cons_succ,
      List.take_of_length_le (le_refl _)]
    exact ⟨_, rfl⟩

theorem copy_out_run (buf v : List Nat) (bufsize : Nat) (h1 : 1 ≤ bufsize)
    (h2 : bufsize < 2 ^ 64) (hcap : bufsize ≤ buf.length) :
    ∃ buf1 rest, copy_out (some buf) v bufsize = .ok (some buf1) ∧
      buf1.length = buf.length ∧
      buf1 = (cstr v).take (min (strlen v) (bufsize - 1)) ++ 0 :: rest := by
  obtain ⟨rest, hrest⟩ := copy_out_shape buf v (bufsize - 1) (by omega)
  refine ⟨_, rest, ?_, ?_, hrest⟩
  · have hle : bufsize - 1 ≤ buf.length := by omega
    have hlen : bufsize - 1 <
        ((cstr v ++ List.replicate (bufsize - 1) 0).take (bufsize - 1)
          ++ buf.drop (bufsize - 1)).length := by
      simp only [List.length_append, List.length_take, List.length_replicate, List.length_drop]
      omega
    unfold copy_out strncpy
    rw [size_t_dec_eq bufsize h1 h2]
    dsimp only
    rw [if_pos hle]
    dsimp only
    rw [if_pos hlen]
  · simp only [List.length_set, List.length_append, List.length_take, List.length_replicate,
      List.length_drop]
    omega

/-- What a successful `q_remove_head` does to the queue and to the buffer. -/
theorem q_remove_head_run (m : Heap) (q : queue_t) (tmp : Nat) (n : list_ele_t)
    (buf : List Nat) (bufsize : Nat) (hq : q.head = some tmp) (hn : m tmp = some n)
    (hsz : q.size ≠ 0) (h1 : 1 ≤ bufsize) (h2 : bufsize < 2 ^ 64) (hcap : bufsize ≤ buf.length) :
    ∃ buf1 rest, q_remove_head m (some q) (some buf) bufsize
        = .ok (true, m.free tmp, some { q with head := n.next, size := q.size - 1 }, some buf1) ∧
      buf1.length = buf.length ∧
      buf1 = (cstr n.value).take (min (strlen n.value) (bufsize - 1)) ++ 0 :: rest := by
  obtain ⟨buf1, rest, hrun, hlen, hshape⟩ := copy_out_run buf n.value bufsize h1 h2 hcap
  refine ⟨buf1, rest, ?_, hlen, hshape⟩
  simp only [q_remove_head, hq, hn, hrun, hsz, ne_eq, not_false_eq_true, if_true]

theorem q_remove_head_null_buffer (m : Heap) (q : queue_t) (tmp : Nat) (n : list_ele_t)
    (bufsize : Nat) (hq : q.head = some tmp) (hn : m tmp = some n) (hsz : q.size ≠ 0) :
    q_remove_head m (some q) none bufsize
      = .ok (true, m.free tmp, some { q with head := n.next, size := q.size - 1 }, none) := by
  simp only [q_remove_head, hq, hn, copy_out, hsz, ne_eq, not_false_eq_true, if_true]

/-- C9: the truncating copy-out of `q_remove_head`.  The queue has a head node
holding the string `v` and a non-zero `size`.  With a buffer of at least
`bufsize` bytes, `1 ≤ bufsize`, the call returns true and the buffer then starts
with the first `min (strlen v) (bufsize - 1)` bytes of `v` followed by a NUL, so
the string read from it is the `(bufsize - 1)`-byte beginning of `v`, and `v`
itself when `strlen v < bufsize`.  With or without a buffer the head node is
released, `head` moves to its successor and `size` decreases by 1. -/
theorem q_remove_head_copy (m : Heap) (q : queue_t) (tmp : Nat) (n : list_ele_t)
    (buf : List Nat) (bufsize : Nat) (hq : q.head = some tmp) (hn : m tmp = some n)
    (hsz : q.size ≠ 0) :
    (1 ≤ bufsize → bufsize < 2 ^ 64 → bufsize ≤ buf.length →
      ∃ buf1, q_remove_head m (some q) (some buf) bufsize
          = .ok (true, m.free tmp, some { q with head := n.next, size := q.size - 1 },
              some buf1) ∧
        buf1.length = buf.length ∧
        buf1.take (min (strlen n.value) (bufsize - 1) + 1)
          = (cstr n.value).take (min (strlen n.value) (bufsize - 1)) ++ [0] ∧
        cstr buf1 = (cstr n.value).take (bufsize - 1) ∧
        (strlen n.value < bufsize → cstr buf1 = cstr n.value)) ∧
    q_remove_head m (some q) none bufsize
      = .ok (true, m.free tmp, some { q with head := n.next, size := q.size - 1 }, none) := by
  refine ⟨?_, q_remove_head_null_buffer m q tmp n bufsize hq hn hsz⟩
  intro h1 h2 hcap
  obtain ⟨buf1, rest, hrun, hlen, hshape⟩ :=
    q_remove_head_run m q tmp n buf bufsize hq hn hsz h1 h2 hcap
  have hj : min (strlen n.value) (bufsize - 1) ≤ (cstr n.value).length := by
    unfold strlen; omega
  have hc : cstr buf1 = (cstr n.value).take (bufsize - 1) := by
    rw [hshape, cstr_append_nul _ _
      (fun x hx => cstr_no_nul n.value x (List.mem_of_mem_take hx))]
    unfold strlen
    rw [List.take_eq_take]
    omega
  refine ⟨buf1, hrun, hlen, ?_, hc, ?_⟩
  · rw [hshape, List.take_append_eq_append_take]
    simp only [List.length_take]
    rw [Nat.min_eq_left hj, List.take_take, Nat.min_eq_right (by omega)]
    simp
  · intro hlt
    rw [hc, List.take_of_length_le]
    unfold strlen at hlt
    omega

/-- C9, at a queue holding "hello": with `bufsize = 4` and a buffer of 6 bytes the
call leaves "hel" and a NUL in the buffer; without buffer the node is removed
all the same. -/
theorem q_remove_head_copy_witness :
    ∃ m, tail_inserted [(bytes "hello", 1)] = some (m, some ⟨some 1, some 1, 1⟩) ∧
      (∃ buf1, q_remove_head m (some ⟨some 1, some 1, 1⟩) (some [7, 7, 7, 7, 7, 7]) 4
          = .ok (true, m.free 1, some ⟨none, some 1, 1 - 1⟩, some buf1) ∧
        buf1.length = [7, 7, 7, 7, 7, 7].length ∧
        buf1.take (min (strlen (bytes "hello")) (4 - 1) + 1)
          = (cstr (bytes "hello")).take (min (strlen (bytes "hello")) (4 - 1)) ++ [0] ∧
        cstr buf1 = (cstr (bytes "hello")).take (4 - 1) ∧
        (strlen (bytes "hello") < 4 → cstr buf1 = cstr (bytes "hello"))) ∧
      q_remove_head m (some ⟨some 1, some 1, 1⟩) none 4
        = .ok (true, m.free 1, some ⟨none, some 1, 1 - 1⟩, none) ∧
      drained (tail_inserted [(bytes "hello", 1)]) 1 4 = some [(true, bytes "hel")] :=
  ⟨_, rfl,
    (q_remove_head_copy _ ⟨some 1, some 1, 1⟩ 1 ⟨bytes "hello", none⟩ [7, 7, 7, 7, 7, 7] 4
      rfl (by decide) (by decide)).1 (by decide) (by decide) (by decide),
    (q_remove_head_copy _ ⟨some 1, some 1, 1⟩ 1 ⟨bytes "hello", none⟩ [7, 7, 7, 7, 7, 7] 4
      rfl (by decide) (by decide)).2,
    by decide⟩

/-! ## Insertion -/

theorem cstr_idem (s : List Nat) : cstr (cstr s) = cstr s := by
  unfold cstr
  rw [List.takeWhile_eq_self_iff]
  intro x hx
  exact List.mem_takeWhile_imp (p := fun c => c != 0) hx

theorem strlen_cstr (s : List Nat) : strlen (cstr s) = strlen s := by
  unfold strlen; rw [cstr_idem]

theorem fresh_not_mem {m : Heap} {p0 : Ptr} {l : List Nat} {p : Nat} (h : Chain m p0 l)
    (hp : m p = none) : p ∉ l := by
  intro hmem
  obtain ⟨n, hn⟩ := chain_live h p hmem
  rw [hp] at hn; cases hn

/-- A successful `q_insert_tail` on a queue that satisfies the invariants, the
node being allocated at a free address `p`. -/
theorem q_insert_tail_run (m : Heap) (q : queue_t) (l : List Nat) (s : List Nat) (p : Nat)
    (h : Inv m q l) (hp : m p = none) :
    ∃ m1 q1, q_insert_tail m (some q) s true (some p) = .ok (true, m1, some q1) ∧
      Inv m1 q1 (l ++ [p]) ∧ m1 p = some ⟨cstr s, none⟩ ∧
      (∀ x, x ≠ p → (m1 x).map list_ele_t.value = (m x).map list_ele_t.value) ∧
      (∀ x, x ≠ p → x ∉ l → m1 x = m x) := by
  obtain ⟨hch, hsize, htail⟩ := h
  have hpl : p ∉ l := fresh_not_mem hch hp
  rcases List.eq_nil_or_concat l with rfl | ⟨L, t, hl⟩
  · have ht : q.tail = none := by simpa using htail
    refine ⟨m.store p ⟨cstr s, none⟩, ⟨some p, some p, q.size + 1⟩, ?_, ⟨?_, ?_, ?_⟩, ?_, ?_, ?_⟩
    · simp only [q_insert_tail, ht, strcpy, Bool.not_true, Bool.false_eq_true, if_false]
    · exact ⟨rfl, _, store_same _ _ _, rfl⟩
    · simp only [hsize]; simp
    · rfl
    · exact store_same _ _ _
    · intro x hx; rw [store_other _ _ _ _ hx]
    · intro x hx _; exact store_other _ _ _ _ hx
  · rw [List.concat_eq_append] at hl
    subst hl
    have ht : q.tail = some t := by simpa using htail
    obtain ⟨r, hseg, hlast⟩ := seg_append.1 hch
    obtain ⟨hr, nt, hnt, hend⟩ := hlast
    subst hr
    have hnx : nt.next = none := hend
    have htp : t ≠ p := by
      rintro rfl
      rw [hp] at hnt; cases hnt
    have hnd := chain_nodup hch
    have htL : t ∉ L := by
      intro hmem
      exact (List.nodup_append.1 hnd).2.2 hmem (List.mem_singleton_self _)
    have hpL : p ∉ L := fun hmem => hpl (List.mem_append_left _ hmem)
    have hm1t : (m.store p ⟨cstr s, none⟩) t = some nt := by
      rw [store_other _ _ _ _ htp, hnt]
    refine ⟨(m.store p ⟨cstr s, none⟩).store t { nt with next := some p },
      { q with tail := some p, size := q.size + 1 }, ?_, ⟨?_, ?_, ?_⟩, ?_, ?_, ?_⟩
    · simp only [q_insert_tail, ht, strcpy, hm1t, Bool.not_true, Bool.false_eq_true, if_false]
    · show Seg _ q.head (L ++ [t] ++ [p]) none
      rw [List.append_assoc]
      refine seg_append.2 ⟨some t, ?_, ?_⟩
      · refine seg_frame ?_ hseg
        intro x hx
        rw [store_other _ _ _ _ (fun h : x = t => htL (h ▸ hx)),
          store_other _ _ _ _ (fun h : x = p => hpL (h ▸ hx))]
      · refine ⟨rfl, _, store_same _ _ _, rfl, ⟨cstr s, none⟩, ?_, rfl⟩
        rw [store_other _ _ _ _ (Ne.symm htp)]
        exact store_same _ _ _
    · simp only [hsize, List.length_append, List.length_singleton]
      push_cast
      ring
    · simp
    · rw [store_other _ _ _ _ (Ne.symm htp)]
      exact store_same _ _ _
    · intro x hx
      by_cases hxt : x = t
      · subst hxt
        simp [hnt]
      · rw [store_other _ _ _ _ hxt, store_other _ _ _ _ hx]
    · intro x hx hxl
      have hxt : x ≠ t := fun h => hxl (h ▸ List.mem_append_right _ (List.mem_singleton_self _))
      rw [store_other _ _ _ _ hxt, store_other _ _ _ _ hx]

/-- A successful `q_insert_head` on a queue that satisfies the invariants, the
node being allocated at a free address `p`. -/
theorem q_insert_head_run (m : Heap) (q : queue_t) (l : List Nat) (s : List Nat) (p : Nat)
    (h : Inv m q l) (hp : m p = none) :
    ∃ q1, q_insert_head m (some q) s true (some p)
        = (true, m.store p ⟨cstr s, q.head⟩, some q1) ∧
      Inv (m.store p ⟨cstr s, q.head⟩) q1 (p :: l) := by
  obtain ⟨hch, hsize, htail⟩ := h
  have hpl : p ∉ l := fresh_not_mem hch hp
  have hch1 : Chain (m.store p ⟨cstr s, q.head⟩) (some p) (p :: l) :=
    ⟨rfl, _, store_same _ _ _,
      chain_frame (fun x hx => store_other _ _ _ _ (fun h : x = p => hpl (h ▸ hx))) hch⟩
  cases l with
  | nil =>
    have hs : q.size = 0 := by simpa using hsize
    refine ⟨⟨some p, some p, q.size + 1⟩, ?_, hch1, ?_, rfl⟩
    · simp [q_insert_head, strcpy, hs]
    · simp [hs]
  | cons a l =>
    have hs : ¬ q.size + 1 = 1 := by
      rw [hsize]; simp only [List.length_cons]; push_cast; omega
    refine ⟨⟨some p, q.tail, q.size + 1⟩, ?_, hch1, ?_, ?_⟩
    · simp [q_insert_head, strcpy, hs]
    · simp only [hsize, List.length_cons]; push_cast; ring
    · simpa using htail

/-! ## Sequences of insertions and removals -/

theorem valOf_store_same (m : Heap) (p : Nat) (n : list_ele_t) :
    valOf (m.store p n) p = n.value := by
  simp [valOf]

theorem insert_tail_all_spec : ∀ (items : List (List Nat × Nat)) (m : Heap) (q : queue_t)
    (l : List Nat), Inv m q l → (∀ x ∈ items, m x.2 = none) → (items.map Prod.snd).Nodup →
    ∃ m1 q1, insert_tail_all m (some q) items
        = .ok (List.replicate items.length true, m1, some q1) ∧
      Inv m1 q1 (l ++ items.map Prod.snd) ∧
      (l ++ items.map Prod.snd).map (valOf m1)
        = l.map (valOf m) ++ items.map (fun x => cstr x.1) ∧
      (∀ x, x ∉ l → x ∉ items.map Prod.snd → m1 x = m x) := by
  intro items
  induction items with
  | nil =>
    intro m q l h _ _
    exact ⟨m, q, rfl, by simpa using h, by simp, fun _ _ _ => rfl⟩
  | cons it rest ih =>
    intro m q l h hfresh hnd
    obtain ⟨s, p⟩ := it
    have hp : m p = none := hfresh (s, p) (List.mem_cons_self _ _)
    obtain ⟨m1, q1, hrun, hinv, hm1p, hdat, hfr⟩ := q_insert_tail_run m q l s p h hp
    have hpl : p ∉ l := fresh_not_mem h.1 hp
    have hnd2 : p ∉ rest.map Prod.snd ∧ (rest.map Prod.snd).Nodup := by
      simpa using hnd
    have hfresh1 : ∀ x ∈ rest, m1 x.2 = none := by
      intro x hx
      have hx0 : m x.2 = none := hfresh x (List.mem_cons_of_mem _ hx)
      have hxp : x.2 ≠ p := by
        intro he
        exact hnd2.1 (he ▸ List.mem_map_of_mem Prod.snd hx)
      rw [hfr x.2 hxp (fresh_not_mem h.1 hx0), hx0]
    obtain ⟨m2, q2, hrun2, hinv2, hval2, hfr2⟩ := ih m1 q1 (l ++ [p]) hinv hfresh1 hnd2.2
    refine ⟨m2, q2, ?_, ?_, ?_, ?_⟩
    · simp only [insert_tail_all, hrun, hrun2, List.length_cons, List.replicate_succ]
    · simpa using hinv2
    · have hl : (l ++ [p]).map (valOf m1) = l.map (valOf m) ++ [cstr s] := by
        rw [List.map_append]
        congr 1
        · apply List.map_congr_left
          intro x hx
          exact valOf_eq_of_map (hdat x (fun h : x = p => hpl (h ▸ hx)))
        · simp [valOf, hm1p]
      rw [hl] at hval2
      simpa using hval2
    · intro x hxl hxr
      have hxp : x ≠ p := fun h => hxr (by simp [h])
      have hxr2 : x ∉ rest.map Prod.snd := fun h => hxr (by
        simp only [List.map_cons, List.mem_cons]; exact Or.inr h)
      rw [hfr2 x (by simp [hxl, hxp]) hxr2, hfr x hxp hxl]

theorem insert_head_all_spec : ∀ (items : List (List Nat × Nat)) (m : Heap) (q : queue_t)
    (l : List Nat), Inv m q l → (∀ x ∈ items, m x.2 = none) → (items.map Prod.snd).Nodup →
    ∃ m1 q1, insert_head_all m (some q) items
        = (List.replicate items.length true, m1, some q1) ∧
      Inv m1 q1 ((items.map Prod.snd).reverse ++ l) ∧
      ((items.map Prod.snd).reverse ++ l).map (valOf m1)
        = (items.map (fun x => cstr x.1)).reverse ++ l.map (valOf m) ∧
      (∀ x, x ∉ items.map Prod.snd → m1 x = m x) := by
  intro items
  induction items with
  | nil =>
    intro m q l h _ _
    exact ⟨m, q, rfl, by simpa using h, by simp, fun _ _ => rfl⟩
  | cons it rest ih =>
    intro m q l h hfresh hnd
    obtain ⟨s, p⟩ := it
    have hp : m p = none := hfresh (s, p) (List.mem_cons_self _ _)
    obtain ⟨q1, hrun, hinv⟩ := q_insert_head_run m q l s p h hp
    have hpl : p ∉ l := fresh_not_mem h.1 hp
    have hnd2 : p ∉ rest.map Prod.snd ∧ (rest.map Prod.snd).Nodup := by
      simpa using hnd
    have hfresh1 : ∀ x ∈ rest, (m.store p ⟨cstr s, q.head⟩) x.2 = none := by
      intro x hx
      have hxp : x.2 ≠ p := by
        intro he
        exact hnd2.1 (he ▸ List.mem_map_of_mem Prod.snd hx)
      rw [store_other _ _ _ _ hxp]
      exact hfresh x (List.mem_cons_of_mem _ hx)
    obtain ⟨m2, q2, hrun2, hinv2, hval2, hfr2⟩ := ih _ q1 (p :: l) hinv hfresh1 hnd2.2
    refine ⟨m2, q2, ?_, ?_, ?_, ?_⟩
    · simp only [insert_head_all, hrun, hrun2, List.length_cons, List.replicate_succ]
    · simpa using hinv2
    · have hl : (p :: l).map (valOf (m.store p ⟨cstr s, q.head⟩))
          = cstr s :: l.map (valOf m) := by
        rw [List.map_cons, valOf_store_same]
        congr 1
        apply List.map_congr_left
        intro x hx
        unfold valOf
        rw [store_other _ _ _ _ (fun h : x = p => hpl (h ▸ hx))]
      rw [hl] at hval2
      simpa using hval2
    · intro x hx
      have hxp : x ≠ p := fun h => hx (by simp [h])
      have hxr2 : x ∉ rest.map Prod.snd := fun h => hx (by
        simp only [List.map_cons, List.mem_cons]; exact Or.inr h)
      rw [hfr2 x hxr2, store_other _ _ _ _ hxp]

theorem remove_head_n_spec (bufsize : Nat) (h2 : bufsize < 2 ^ 64) :
    ∀ (l : List Nat) (m : Heap) (q : queue_t) (buf : List Nat),
    Chain m q.head l → q.size = (l.length : Int) → bufsize ≤ buf.length →
    (∀ x ∈ l, strlen (valOf m x) < bufsize) →
    ∃ m2 q2 buf2, remove_head_n bufsize l.length m (some q) buf
        = .ok (l.map (fun x => (true, cstr (valOf m x))), m2, some q2, buf2) ∧
      q2.size = 0 ∧ q2.head = none ∧ q2.tail = q.tail ∧
      (∀ x, x ∉ l → m2 x = m x) ∧ (∀ x ∈ l, m2 x = none) := by
  intro l
  induction l with
  | nil =>
    intro m q buf hch hsize _ _
    exact ⟨m, q, buf, rfl, by simpa using hsize, hch, rfl, fun _ _ => rfl,
      fun _ h => by cases h⟩
  | cons a l ih =>
    intro m q buf hch hsize hcap hbig
    have hal : a ∉ l := chain_head_not_mem hch
    obtain ⟨hh, n, hn, hrest⟩ := hch
    have hva : valOf m a = n.value := by simp [valOf, hn]
    have hlt : strlen n.value < bufsize := hva ▸ hbig a (List.mem_cons_self _ _)
    have hsz : q.size ≠ 0 := by
      rw [hsize]; simp only [List.length_cons]; push_cast; omega
    obtain ⟨buf1, rest, hrun, hlen, hshape⟩ :=
      q_remove_head_run m q a n buf bufsize hh hn hsz (by omega) h2 hcap
    have hstr : cstr buf1 = cstr (valOf m a) := by
      rw [hshape, hva, Nat.min_eq_left (by omega)]
      unfold strlen
      rw [List.take_of_length_le (le_refl _)]
      exact cstr_append_nul _ _ (cstr_no_nul _)
    have hrest1 : Chain (m.free a) n.next l :=
      chain_frame (fun x hx => free_other _ _ _ (fun h : x = a => hal (h ▸ hx))) hrest
    have hval : ∀ x ∈ l, valOf (m.free a) x = valOf m x := by
      intro x hx
      unfold valOf
      rw [free_other _ _ _ (fun h : x = a => hal (h ▸ hx))]
    obtain ⟨m2, q2, buf2, hrun2, hs2, hh2, ht2, hfr2, hdead2⟩ :=
      ih (m.free a) { q with head := n.next, size := q.size - 1 } buf1 hrest1
        (by
          show q.size - 1 = (l.length : Int)
          rw [hsize]; simp only [List.length_cons]; push_cast; omega)
        (by omega)
        (fun x hx => by rw [hval x hx]; exact hbig x (List.mem_cons_of_mem _ hx))
    refine ⟨m2, q2, buf2, ?_, hs2, hh2, ht2, ?_, ?_⟩
    · have hmap : l.map (fun x => (true, cstr (valOf (m.free a) x)))
          = l.map (fun x => (true, cstr (valOf m x))) := by
        apply List.map_congr_left
        intro x hx
        rw [hval x hx]
      simp only [List.length_cons, remove_head_n, hrun, Option.getD_some, hrun2, hstr, hmap,
        List.map_cons]
    · intro x hx
      have hxa : x ≠ a := fun h => hx (h ▸ List.mem_cons_self _ _)
      rw [hfr2 x (fun h => hx (List.mem_cons_of_mem _ h)), free_other _ _ _ hxa]
    · intro x hx
      rcases List.mem_cons.1 hx with rfl | hx
      · rw [hfr2 x hal]; exact free_same _ _
      · exact hdead2 x hx

theorem map_results (ps : List Nat) (vals : List (List Nat)) (f : Nat → List Nat)
    (h : ps.map f = vals) :
    ps.map (fun x => (true, cstr (f x))) = vals.map (fun v => (true, cstr v)) := by
  subst h
  rw [List.map_map]
  rfl

theorem inv_q_new (m : Heap) : Inv m ⟨none, none, 0⟩ [] := ⟨rfl, rfl, rfl⟩

/-- C7 (FIFO): from the queue returned by `q_new`, `q_insert_tail` of each string
(the nodes being allocated at distinct free addresses) returns true every time;
`q_remove_head` called as many times with a buffer larger than every string then
returns true every time and yields the strings in insertion order, and the
queue ends with `size` 0 and no head. -/
theorem fifo_order (m0 : Heap) (items : List (List Nat × Nat)) (buf : List Nat) (bufsize : Nat)
    (hfresh : ∀ x ∈ items, m0 x.2 = none) (hnd : (items.map Prod.snd).Nodup)
    (hcap : bufsize ≤ buf.length) (h2 : bufsize < 2 ^ 64)
    (hbig : ∀ x ∈ items, strlen x.1 < bufsize) :
    ∃ m1 q1 m2 q2 buf2,
      insert_tail_all m0 (q_new true) items
        = .ok (List.replicate items.length true, m1, some q1) ∧
      q_size (some q1) = items.length ∧
      remove_head_n bufsize items.length m1 (some q1) buf
        = .ok (items.map (fun x => (true, cstr x.1)), m2, some q2, buf2) ∧
      q_size (some q2) = 0 ∧ q2.head = none := by
  obtain ⟨m1, q1, hrun, hinv, hval, _⟩ :=
    insert_tail_all_spec items m0 ⟨none, none, 0⟩ [] (inv_q_new m0) hfresh hnd
  simp only [List.nil_append, List.map_nil] at hinv hval
  have hbig1 : ∀ x ∈ items.map Prod.snd, strlen (valOf m1 x) < bufsize := by
    intro x hx
    have : valOf m1 x ∈ (items.map Prod.snd).map (valOf m1) := List.mem_map_of_mem _ hx
    rw [hval] at this
    obtain ⟨it, hit, he⟩ := List.mem_map.1 this
    rw [← he, strlen_cstr]
    exact hbig it hit
  obtain ⟨m2, q2, buf2, hrun2, hs2, hh2, _, _, _⟩ :=
    remove_head_n_spec bufsize h2 (items.map Prod.snd) m1 q1 buf hinv.1 hinv.2.1 hcap hbig1
  refine ⟨m1, q1, m2, q2, buf2, hrun, ?_, ?_, hs2, hh2⟩
  · simpa [q_size] using hinv.2.1
  · rw [List.length_map] at hrun2
    rw [hrun2]
    have : (items.map Prod.snd).map (fun x => (true, cstr (valOf m1 x)))
        = items.map (fun x => (true, cstr x.1)) := by
      rw [map_results _ _ _ hval, List.map_map]
      apply List.map_congr_left
      intro x _
      simp [cstr_idem]
    rw [this]

/-- C8 (LIFO): from the queue returned by `q_new`, `q_insert_head` of each string
(the nodes being allocated at distinct free addresses) returns true every time;
`q_remove_head` called as many times with a buffer larger than every string then
returns true every time and yields the strings in reverse insertion order, and
the queue ends with `size` 0 and no head. -/
theorem lifo_order (m0 : Heap) (items : List (List Nat × Nat)) (buf : List Nat) (bufsize : Nat)
    (hfresh : ∀ x ∈ items, m0 x.2 = none) (hnd : (items.map Prod.snd).Nodup)
    (hcap : bufsize ≤ buf.length) (h2 : bufsize < 2 ^ 64)
    (hbig : ∀ x ∈ items, strlen x.1 < bufsize) :
    ∃ m1 q1 m2 q2 buf2,
      insert_head_all m0 (q_new true) items
        = (List.replicate items.length true, m1, some q1) ∧
      q_size (some q1) = items.length ∧
      remove_head_n bufsize items.length m1 (some q1) buf
        = .ok (items.reverse.map (fun x => (true, cstr x.1)), m2, some q2, buf2) ∧
      q_size (some q2) = 0 ∧ q2.head = none := by
  obtain ⟨m1, q1, hrun, hinv, hval, _⟩ :=
    insert_head_all_spec items m0 ⟨none, none, 0⟩ [] (inv_q_new m0) hfresh hnd
  simp only [List.append_nil, List.map_nil] at hinv hval
  have hbig1 : ∀ x ∈ (items.map Prod.snd).reverse, strlen (valOf m1 x) < bufsize := by
    intro x hx
    have : valOf m1 x ∈ ((items.map Prod.snd).reverse).map (valOf m1) :=
      List.mem_map_of_mem _ hx
    rw [hval] at this
    obtain ⟨it, hit, he⟩ := List.mem_map.1 (List.mem_reverse.1 this)
    rw [← he, strlen_cstr]
    exact hbig it hit
  obtain ⟨m2, q2, buf2, hrun2, hs2, hh2, _, _, _⟩ :=
    remove_head_n_spec bufsize h2 (items.map Prod.snd).reverse m1 q1 buf hinv.1 hinv.2.1 hcap
      hbig1
  refine ⟨m1, q1, m2, q2, buf2, hrun, ?_, ?_, hs2, hh2⟩
  · simpa [q_size] using hinv.2.1
  · rw [List.length_reverse, List.length_map] at hrun2
    rw [hrun2]
    have : ((items.map Prod.snd).reverse).map (fun x => (true, cstr (valOf m1 x)))
        = items.reverse.map (fun x => (true, cstr x.1)) := by
      rw [map_results _ _ _ hval, ← List.map_reverse, List.map_map]
      apply List.map_congr_left
      intro x _
      simp [cstr_idem]
    rw [this]

/-- C7, on the strings "ab" and "c" with nodes at addresses 1 and 2 and a buffer
of 4 bytes: the two removals yield "ab" and then "c". -/
theorem fifo_order_witness :
    (∀ x ∈ [(bytes "ab", 1), (bytes "c", 2)], Heap.empty x.2 = none) ∧
    ([(bytes "ab", 1), (bytes "c", 2)].map Prod.snd).Nodup ∧
    (∀ x ∈ [(bytes "ab", 1), (bytes "c", 2)], strlen x.1 < 4) ∧
    (∃ m1 q1 m2 q2 buf2,
      insert_tail_all Heap.empty (q_new true) [(bytes "ab", 1), (bytes "c", 2)]
        = .ok (List.replicate [(bytes "ab", 1), (bytes "c", 2)].length true, m1, some q1) ∧
      q_size (some q1) = [(bytes "ab", 1), (bytes "c", 2)].length ∧
      remove_head_n 4 [(bytes "ab", 1), (bytes "c", 2)].length m1 (some q1) [0, 0, 0, 0]
        = .ok ([(bytes "ab", 1), (bytes "c", 2)].map (fun x => (true, cstr x.1)),
            m2, some q2, buf2) ∧
      q_size (some q2) = 0 ∧ q2.head = none) ∧
    drained (tail_inserted [(bytes "ab", 1), (bytes "c", 2)]) 2 4
      = some [(true, bytes "ab"), (true, bytes "c")] :=
  ⟨by decide, by decide, by decide,
    fifo_order Heap.empty [(bytes "ab", 1), (bytes "c", 2)] [0, 0, 0, 0] 4
      (by decide) (by decide) (by decide) (by decide) (by decide),
    by decide⟩

/-- C8, on the strings "ab" and "c" with nodes at addresses 1 and 2 and a buffer
of 4 bytes: the two removals yield "c" and then "ab". -/
theorem lifo_order_witness :
    (∀ x ∈ [(bytes "ab", 1), (bytes "c", 2)], Heap.empty x.2 = none) ∧
    ([(bytes "ab", 1), (bytes "c", 2)].map Prod.snd).Nodup ∧
    (∀ x ∈ [(bytes "ab", 1), (bytes "c", 2)], strlen x.1 < 4) ∧
    (∃ m1 q1 m2 q2 buf2,
      insert_head_all Heap.empty (q_new true) [(bytes "ab", 1), (bytes "c", 2)]
        = (List.replicate [(bytes "ab", 1), (bytes "c", 2)].length true, m1, some q1) ∧
      q_size (some q1) = [(bytes "ab", 1), (bytes "c", 2)].length ∧
      remove_head_n 4 [(bytes "ab", 1), (bytes "c", 2)].length m1 (some q1) [0, 0, 0, 0]
        = .ok ([(bytes "ab", 1), (bytes "c", 2)].reverse.map (fun x => (true, cstr x.1)),
            m2, some q2, buf2) ∧
      q_size (some q2) = 0 ∧ q2.head = none) ∧
    drained (head_inserted [(bytes "ab", 1), (bytes "c", 2)]) 2 4
      = some [(true, bytes "c"), (true, bytes "ab")] :=
  ⟨by decide, by decide, by decide,
    lifo_order Heap.empty [(bytes "ab", 1), (bytes "c", 2)] [0, 0, 0, 0] 4
      (by decide) (by decide) (by decide) (by decide) (by decide),
    by decide⟩

/-- C10: the code on a queue with a single element.  After `insert_tail` of "a"
(node 1) the invariants hold; the successful `q_remove_head` leaves `head`
absent and `size` 0 but `tail` still on node 1, which has been released.  A
later `q_insert_tail` then writes through the released node when `malloc` hands
out another address, and leaves `head` absent with `size` 1 when `malloc` hands
out address 1 again.  With two elements `tail` is unchanged and still the last
node. -/
theorem q_remove_head_dangling_tail_example :
    (∃ m, tail_inserted [(bytes "a", 1)] = some (m, some ⟨some 1, some 1, 1⟩) ∧
      Inv m ⟨some 1, some 1, 1⟩ [1]) ∧
    (∃ m1, after_remove_head (tail_inserted [(bytes "a", 1)])
        = some (m1, some ⟨none, some 1, 0⟩) ∧ m1 1 = none ∧
      ¬ Inv m1 ⟨none, some 1, 0⟩ []) ∧
    after_insert_tail (after_remove_head (tail_inserted [(bytes "a", 1)])) (bytes "b") 2
      = none ∧
    (∃ m2, after_insert_tail (after_remove_head (tail_inserted [(bytes "a", 1)])) (bytes "b") 1
        = some (m2, some ⟨none, some 1, 1⟩)) ∧
    (∃ m3, after_remove_head (tail_inserted [(bytes "a", 1), (bytes "b", 2)])
        = some (m3, some ⟨some 2, some 2, 1⟩) ∧ Inv m3 ⟨some 2, some 2, 1⟩ [2]) :=
  ⟨⟨_, rfl, by decide⟩, ⟨_, rfl, by decide, by decide⟩, rfl, ⟨_, rfl⟩,
    ⟨_, rfl, by decide⟩⟩

/-! ## Failure paths and frame properties -/

/-- C14: failed insertion is atomic.  `q_insert_head` and `q_insert_tail` return
false when the queue is absent, when the string allocation fails or when the
node allocation fails, and then the node memory and the queue record (`head`,
`tail`, `size`, hence the chain) are exactly those before the call.  In every
other case `q_insert_head` returns true, and `q_insert_tail` returns true
whenever it returns at all, which it does when `tail` is absent or designates a
live node. -/
theorem insert_failure_atomic (m : Heap) (q : Option queue_t) (s : List Nat)
    (news_ok : Bool) (newp : Ptr) :
    ((q = none ∨ news_ok = false ∨ newp = none) →
      q_insert_head m q s news_ok newp = (false, m, q) ∧
      q_insert_tail m q s news_ok newp = .ok (false, m, q)) ∧
    (¬ (q = none ∨ news_ok = false ∨ newp = none) →
      (q_insert_head m q s news_ok newp).1 = true ∧
      (∀ r, q_insert_tail m q s news_ok newp = .ok r → r.1 = true) ∧
      (∀ qq p, q = some qq → newp = some p →
        (qq.tail = none ∨ ∃ t n, qq.tail = some t ∧ (m.store p ⟨strcpy s, none⟩) t = some n) →
        ∃ m1 q1, q_insert_tail m q s news_ok newp = .ok (true, m1, some q1))) := by
  refine ⟨?_, ?_⟩
  · intro h
    cases q with
    | none => exact ⟨rfl, rfl⟩
    | some qq =>
      cases news_ok with
      | false => exact ⟨rfl, rfl⟩
      | true =>
        cases newp with
        | none => exact ⟨rfl, rfl⟩
        | some p => simp at h
  · intro h
    cases q with
    | none => simp at h
    | some qq =>
      cases news_ok with
      | false => simp at h
      | true =>
        cases newp with
        | none => simp at h
        | some p =>
          refine ⟨rfl, ?_, ?_⟩
          · intro r hr
            simp only [q_insert_tail, Bool.not_true, Bool.false_eq_true, if_false] at hr
            cases ht : qq.tail with
            | none =>
              rw [ht] at hr
              simp only [Except.ok.injEq] at hr
              rw [← hr]
            | some t =>
              rw [ht] at hr
              simp only at hr
              cases hmt : (m.store p ⟨strcpy s, none⟩) t with
              | none => rw [hmt] at hr; simp at hr
              | some nt =>
                rw [hmt] at hr
                simp only [Except.ok.injEq] at hr
                rw [← hr]
          · intro qq1 p1 hq hp htail
            cases hq; cases hp
            simp only [q_insert_tail, Bool.not_true, Bool.false_eq_true, if_false]
            rcases htail with ht | ⟨t, n, ht, hn⟩
            · rw [ht]; exact ⟨_, _, rfl⟩
            · rw [ht]
              simp only [hn]
              exact ⟨_, _, rfl⟩

/-- C14, on the queue holding "a" (node 1): insertion of "b" with a failed node
allocation changes nothing; with node 2 allocated `q_insert_tail` returns
true. -/
theorem insert_failure_atomic_witness :
    ∃ m, tail_inserted [(bytes "a", 1)] = some (m, some ⟨some 1, some 1, 1⟩) ∧
      (q_insert_head m (some ⟨some 1, some 1, 1⟩) (bytes "b") true none
          = (false, m, some ⟨some 1, some 1, 1⟩) ∧
        q_insert_tail m (some ⟨some 1, some 1, 1⟩) (bytes "b") true none
          = .ok (false, m, some ⟨some 1, some 1, 1⟩)) ∧
      ((q_insert_head m (some ⟨some 1, some 1, 1⟩) (bytes "b") true (some 2)).1 = true ∧
        (∀ r, q_insert_tail m (some ⟨some 1, some 1, 1⟩) (bytes "b") true (some 2) = .ok r →
          r.1 = true) ∧
        (∀ qq p, some (⟨some 1, some 1, 1⟩ : queue_t) = some qq → some 2 = some p →
          (qq.tail = none ∨
            ∃ t n, qq.tail = some t ∧ (m.store p ⟨strcpy (bytes "b"), none⟩) t = some n) →
          ∃ m1 q1, q_insert_tail m (some ⟨some 1, some 1, 1⟩) (bytes "b") true (some 2)
            = .ok (true, m1, some q1))) :=
  ⟨_, rfl,
    (insert_failure_atomic _ (some ⟨some 1, some 1, 1⟩) (bytes "b") true none).1 (by decide),
    (insert_failure_atomic _ (some ⟨some 1, some 1, 1⟩) (bytes "b") true (some 2)).2
      (by decide)⟩

/-- C15: `q_remove_head` returns false when the queue is absent or has no head
node, and then the node memory, the queue record (so `size` stays 0 on an empty
queue) and the buffer are those before the call; whenever it returns on a queue
with a head node it returns true.  `q_size` is 0 for an absent queue. -/
theorem q_remove_head_failure (m : Heap) (q : Option queue_t) (sp : Option (List Nat))
    (bufsize : Nat) :
    ((q = none ∨ ∃ qq, q = some qq ∧ qq.head = none) →
      q_remove_head m q sp bufsize = .ok (false, m, q, sp)) ∧
    (∀ r, q_remove_head m q sp bufsize = .ok r →
      (r.1 = false ↔ (q = none ∨ ∃ qq, q = some qq ∧ qq.head = none))) ∧
    q_size none = 0 := by
  refine ⟨?_, ?_, rfl⟩
  · rintro (h | ⟨qq, hq, hh⟩)
    · subst h; rfl
    · subst hq
      simp only [q_remove_head, hh]
  · intro r hr
    cases q with
    | none =>
      simp only [q_remove_head, Except.ok.injEq] at hr
      rw [← hr]; simp
    | some qq =>
      cases hh : qq.head with
      | none =>
        simp only [q_remove_head, hh, Except.ok.injEq] at hr
        rw [← hr]; simp [hh]
      | some tmp =>
        simp only [q_remove_head, hh] at hr
        cases hm : m tmp with
        | none => rw [hm] at hr; simp at hr
        | some n =>
          rw [hm] at hr
          simp only at hr
          cases hc : copy_out sp n.value bufsize with
          | error e => rw [hc] at hr; simp at hr
          | ok sp1 =>
            rw [hc] at hr
            simp only [Except.ok.injEq] at hr
            rw [← hr]
            simp [hh]

/-- C15, on the queue returned by `q_new`: `q_remove_head` returns false, `size`
stays 0 and the buffer is not written. -/
theorem q_remove_head_failure_witness :
    q_remove_head Heap.empty (q_new true) (some [7, 7, 7]) 3
      = .ok (false, Heap.empty, q_new true, some [7, 7, 7]) ∧
    q_size (q_new true) = 0 :=
  ⟨(q_remove_head_failure Heap.empty (q_new true) (some [7, 7, 7]) 3).1
    (Or.inr ⟨_, rfl, rfl⟩), rfl⟩

theorem q_reverse_size (fuel : Nat) (m : Heap) (q : Option queue_t)
    (r : Heap × Option queue_t) (h : q_reverse fuel m q = .ok r) : q_size r.2 = q_size q := by
  cases q with
  | none =>
    simp only [q_reverse, Except.ok.injEq] at h
    rw [← h]
  | some qq =>
    simp only [q_reverse] at h
    cases hl : q_reverse_loop fuel m none qq.head qq.tail with
    | error e => rw [hl] at h; simp at h
    | ok x =>
      obtain ⟨m1, c, t⟩ := x
      rw [hl] at h
      simp only [Except.ok.injEq] at h
      rw [← h]
      rfl

theorem q_sort_size (fuel : Nat) (m : Heap) (q : Option queue_t)
    (r : Heap × Option queue_t) (h : q_sort fuel m q = .ok r) : q_size r.2 = q_size q := by
  cases q with
  | none =>
    simp only [q_sort, Except.ok.injEq] at h
    rw [← h]
  | some qq =>
    simp only [q_sort] at h
    cases hl : MergeSort fuel m qq.head with
    | error e => rw [hl] at h; simp at h
    | ok x =>
      obtain ⟨m1, c⟩ := x
      rw [hl] at h
      simp only [Except.ok.injEq] at h
      rw [← h]
      rfl

/-- `q_reverse` on any queue whose chain from `head` ends in `NULL`, whatever
`tail` is. -/
theorem q_reverse_run_chain (m : Heap) (q : queue_t) (l : List Nat) (fuel : Nat)
    (h : Chain m q.head l) (hf : l.length ≤ fuel) :
    ∃ m1, q_reverse fuel m (some q)
        = .ok (m1, some { q with head := l.getLast?,
                                 tail := if l = [] then q.tail else q.head }) ∧
      Chain m1 l.getLast? l.reverse ∧
      (∀ x, x ∉ l → m1 x = m x) ∧
      (∀ x, (m1 x).map list_ele_t.value = (m x).map list_ele_t.value) := by
  obtain ⟨m1, r, hrun, hch1, hfr, hdat⟩ := q_reverse_loop_spec l fuel m none q.head q.tail []
    h rfl (fun _ _ h => by cases h) hf
  simp only [List.append_nil, if_true] at hrun hch1
  have hr : r = l.getLast? := by
    rw [chain_head hch1, List.head?_reverse]
  have ht : (l.head?.orElse fun _ => q.tail) = if l = [] then q.tail else q.head := by
    rw [chain_head h]
    cases l with
    | nil => rfl
    | cons a l => rfl
  rw [ht] at hrun
  subst hr
  exact ⟨m1, by simp only [q_reverse, hrun], hch1, hfr, hdat⟩

/-- C16: `q_reverse` and `q_sort` leave `size` unchanged.  On a queue whose chain
from `head` ends in `NULL` both return and `q_size` is the same before and
after; and whenever either returns, on any queue, `q_size` is unchanged. -/
theorem reverse_sort_keep_size (m : Heap) (q : queue_t) (l : List Nat) (fuel : Nat)
    (h : Chain m q.head l) (hf : l.length < fuel) :
    (∃ m1 q1, q_reverse fuel m (some q) = .ok (m1, some q1) ∧
      q1.size = q.size ∧ q_size (some q1) = q_size (some q)) ∧
    (∃ m2 q2, q_sort fuel m (some q) = .ok (m2, some q2) ∧
      q2.size = q.size ∧ q_size (some q2) = q_size (some q)) ∧
    (∀ (f : Nat) (m0 : Heap) (q0 : Option queue_t) (r : Heap × Option queue_t),
      (q_reverse f m0 q0 = .ok r ∨ q_sort f m0 q0 = .ok r) → q_size r.2 = q_size q0) := by
  refine ⟨?_, ?_, ?_⟩
  · obtain ⟨m1, hrun, _⟩ := q_reverse_run_chain m q l fuel h (by omega)
    exact ⟨m1, _, hrun, rfl, rfl⟩
  · obtain ⟨m1, r, hrun, _⟩ := q_sort_run m q l fuel h hf
    exact ⟨m1, _, hrun, rfl, rfl⟩
  · rintro f m0 q0 r (hr | hr)
    · exact q_reverse_size f m0 q0 r hr
    · exact q_sort_size f m0 q0 r hr

/-- C16, on the queue holding "b", "a" (nodes 1, 2). -/
theorem reverse_sort_keep_size_witness :
    ∃ m, tail_inserted [(bytes "b", 1), (bytes "a", 2)]
        = some (m, some ⟨some 1, some 2, 2⟩) ∧
      Chain m (some 1) [1, 2] ∧
      (∃ m1 q1, q_reverse 3 m (some ⟨some 1, some 2, 2⟩) = .ok (m1, some q1) ∧
        q1.size = 2 ∧ q_size (some q1) = q_size (some ⟨some 1, some 2, 2⟩)) ∧
      (∃ m2 q2, q_sort 3 m (some ⟨some 1, some 2, 2⟩) = .ok (m2, some q2) ∧
        q2.size = 2 ∧ q_size (some q2) = q_size (some ⟨some 1, some 2, 2⟩)) :=
  ⟨_, rfl, by decide,
    (reverse_sort_keep_size _ ⟨some 1, some 2, 2⟩ [1, 2] 3 (by decide) (by decide)).1,
    (reverse_sort_keep_size _ ⟨some 1, some 2, 2⟩ [1, 2] 3 (by decide) (by decide)).2.1⟩

/-- C20: `q_reverse` recomputes `tail` from its walk.  On a queue whose chain
from `head` is non-empty and ends in `NULL`, whatever `tail` holds before the
call, `q_reverse` returns and `tail` is afterwards the last node of the reversed
chain, which is the former head, with an absent `next`.  When also `size` is the
number of nodes, `q_sort` followed by `q_reverse` gives a queue that satisfies
the data-model invariants. -/
theorem q_reverse_recomputes_tail (m : Heap) (q : queue_t) (l : List Nat) (fuel : Nat)
    (h : Chain m q.head l) (hne : l ≠ []) (hf : l.length < fuel) :
    (∃ m1 q1 t, q_reverse fuel m (some q) = .ok (m1, some q1) ∧
      Chain m1 q1.head l.reverse ∧ q1.tail = some t ∧ q.head = some t ∧
      l.reverse.getLast? = some t ∧ nextOf m1 t = none) ∧
    (q.size = (l.length : Int) →
      ∃ m1 q1 m2 q2 l2, q_sort fuel m (some q) = .ok (m1, some q1) ∧
        q_reverse fuel m1 (some q1) = .ok (m2, some q2) ∧
        l2.Perm l ∧ Inv m2 q2 l2) := by
  refine ⟨?_, ?_⟩
  · obtain ⟨m1, hrun, hch1, _, _⟩ := q_reverse_run_chain m q l fuel h (by omega)
    obtain ⟨a, l2, rfl⟩ := List.exists_cons_of_ne_nil hne
    have hlast : (a :: l2).reverse.getLast? = some a := by simp
    refine ⟨m1, _, a, hrun, hch1, ?_, h.1, hlast, nextOf_last hch1 a hlast⟩
    simp only [reduceCtorEq, if_false]
    exact h.1
  · intro hsize
    obtain ⟨m1, r, hrun, hch1, _, _⟩ := q_sort_run m q l fuel h hf
    have hperm := msortL_perm (valOf m) _ l (le_refl _)
    have hlen : (msortL (valOf m) l).length = l.length := hperm.length_eq
    have hne1 : msortL (valOf m) l ≠ [] := by
      intro h0
      rw [h0] at hlen
      exact hne (List.eq_nil_of_length_eq_zero hlen.symm)
    obtain ⟨m2, hrun2, hch2, _, _⟩ := q_reverse_run_chain m1 { q with head := r }
      (msortL (valOf m) l) fuel hch1 (by omega)
    refine ⟨m1, _, m2, _, (msortL (valOf m) l).reverse, hrun, hrun2,
      (List.reverse_perm _).trans hperm, hch2, ?_, ?_⟩
    · show q.size = _
      rw [hsize, List.length_reverse, hlen]
    · simp only [hne1, if_false]
      rw [List.getLast?_reverse]
      exact chain_head hch1

/-- C20, on the queue holding "b", "a" (nodes 1, 2) with a stale `tail`. -/
theorem q_reverse_recomputes_tail_witness :
    ∃ m, tail_inserted [(bytes "b", 1), (bytes "a", 2)]
        = some (m, some ⟨some 1, some 2, 2⟩) ∧
      Chain m (some 1) [1, 2] ∧
      (∃ m1 q1 t, q_reverse 3 m (some ⟨some 1, some 1, 2⟩) = .ok (m1, some q1) ∧
        Chain m1 q1.head [1, 2].reverse ∧ q1.tail = some t ∧ some 1 = some t ∧
        [1, 2].reverse.getLast? = some t ∧ nextOf m1 t = none) ∧
      (∃ m1 q1 m2 q2 l2, q_sort 3 m (some ⟨some 1, some 2, 2⟩) = .ok (m1, some q1) ∧
        q_reverse 3 m1 (some q1) = .ok (m2, some q2) ∧
        l2.Perm [1, 2] ∧ Inv m2 q2 l2) :=
  ⟨_, rfl, by decide,
    (q_reverse_recomputes_tail _ ⟨some 1, some 1, 2⟩ [1, 2] 3 (by decide) (by decide)
      (by decide)).1,
    (q_reverse_recomputes_tail _ ⟨some 1, some 2, 2⟩ [1, 2] 3 (by decide) (by decide)
      (by decide)).2 (by decide)⟩

/-- C18: the split rule of `MergeSort`.  On a chain of `n ≥ 2` nodes that ends
in `NULL` the slow/fast walk returns (a budget of `n / 2` steps suffices) with
`slow` on a live node `s`; after `slow->next = NULL` the chain from `head` is
the first `⌈n/2⌉` nodes and the chain from the former `slow->next` is the
remaining `⌊n/2⌋` nodes, both in the original order; both parts are non-empty
and strictly shorter than `n`. -/
theorem front_back_split (m : Heap) (head : Ptr) (l : List Nat) (fuel : Nat)
    (hch : Chain m head l) (hn : 2 ≤ l.length) (hf : l.length / 2 ≤ fuel) :
    ∃ h nh s ns, head = some h ∧ m h = some nh ∧
      split_loop fuel m head nh.next = .ok (some s) ∧ m s = some ns ∧
      Chain (m.store s { ns with next := none }) head (l.take ((l.length + 1) / 2)) ∧
      Chain (m.store s { ns with next := none }) ns.next (l.drop ((l.length + 1) / 2)) ∧
      l.take ((l.length + 1) / 2) ++ l.drop ((l.length + 1) / 2) = l ∧
      (l.take ((l.length + 1) / 2)).length = (l.length + 1) / 2 ∧
      (l.drop ((l.length + 1) / 2)).length = l.length / 2 ∧
      0 < (l.length + 1) / 2 ∧ (l.length + 1) / 2 < l.length ∧
      0 < l.length / 2 ∧ l.length / 2 < l.length := by
  match l, hch, hn, hf with
  | [], _, hn, _ => simp at hn
  | [_], _, hn, _ => simp at hn
  | a :: b :: l, hch, hn, hf =>
    obtain ⟨hh, nh, hnh, hrest⟩ := hch
    have hchain : Chain m head (a :: b :: l) := ⟨hh, nh, hnh, hrest⟩
    have hwalk := split_loop_spec fuel m head nh.next (a :: b :: l) (b :: l) hchain hrest
      (by simp only [List.length_cons]; omega) (by simp only [List.length_cons] at hf ⊢; omega)
    have hiL : (b :: l).length / 2 < (a :: b :: l).length := by
      simp only [List.length_cons]; omega
    have hmid : ((a :: b :: l).length + 1) / 2 = (b :: l).length / 2 + 1 := by
      simp only [List.length_cons]; omega
    have hsplit := list_cut_at (a :: b :: l) _ hiL
    have htake := list_take_succ_get (a :: b :: l) _ hiL
    have hcut : Chain m head ((a :: b :: l).take ((b :: l).length / 2)
        ++ (a :: b :: l).get ⟨(b :: l).length / 2, hiL⟩
          :: (a :: b :: l).drop ((b :: l).length / 2 + 1)) := by
      rw [← hsplit]; exact hchain
    obtain ⟨ns, hns, hfront, hback⟩ := chain_cut hcut
    rw [← htake] at hfront
    refine ⟨a, nh, _, ns, hh, hnh, ?_, hns, ?_, ?_, List.take_append_drop _ _, ?_, ?_, ?_, ?_,
      ?_, ?_⟩
    · rw [hwalk, List.get?_eq_get hiL]
    · rw [hmid]; exact hfront
    · rw [hmid]; exact hback
    · rw [List.length_take]; simp only [List.length_cons]; omega
    · rw [List.length_drop]; simp only [List.length_cons]; omega
    · simp only [List.length_cons]; omega
    · simp only [List.length_cons]; omega
    · simp only [List.length_cons]; omega
    · simp only [List.length_cons]; omega

/-- C18, on the chain of the nodes 1, 2, 3: the front part is 1, 2 and the back
part is 3. -/
theorem front_back_split_witness :
    ∃ m, tail_inserted [(bytes "c", 1), (bytes "b", 2), (bytes "a", 3)]
        = some (m, some ⟨some 1, some 3, 3⟩) ∧
      Chain m (some 1) [1, 2, 3] ∧
      ∃ h nh s ns, some 1 = some h ∧ m h = some nh ∧
        split_loop 1 m (some 1) nh.next = .ok (some s) ∧ m s = some ns ∧
        Chain (m.store s { ns with next := none }) (some 1)
          ([1, 2, 3].take (([1, 2, 3].length + 1) / 2)) ∧
        Chain (m.store s { ns with next := none }) ns.next
          ([1, 2, 3].drop (([1, 2, 3].length + 1) / 2)) ∧
        [1, 2, 3].take (([1, 2, 3].length + 1) / 2)
          ++ [1, 2, 3].drop (([1, 2, 3].length + 1) / 2) = [1, 2, 3] ∧
        ([1, 2, 3].take (([1, 2, 3].length + 1) / 2)).length = ([1, 2, 3].length + 1) / 2 ∧
        ([1, 2, 3].drop (([1, 2, 3].length + 1) / 2)).length = [1, 2, 3].length / 2 ∧
        0 < ([1, 2, 3].length + 1) / 2 ∧ ([1, 2, 3].length + 1) / 2 < [1, 2, 3].length ∧
        0 < [1, 2, 3].length / 2 ∧ [1, 2, 3].length / 2 < [1, 2, 3].length :=
  ⟨_, rfl, by decide,
    front_back_split _ (some 1) [1, 2, 3] 1 (by decide) (by decide) (by decide)⟩

/-! ## Termination of the sort -/

/-- Two heaps that hold the same chain from the same pointer, agree outside it
and hold the same strings are equal. -/
theorem heap_eq_of_chain {m m1 m2 : Heap} {p : Ptr} {l l0 : List Nat}
    (h1 : Chain m1 p l) (h2 : Chain m2 p l) (hmem : ∀ x, x ∈ l ↔ x ∈ l0)
    (hf1 : ∀ x, x ∉ l0 → m1 x = m x) (hf2 : ∀ x, x ∉ l0 → m2 x = m x)
    (hd1 : ∀ x, (m1 x).map list_ele_t.value = (m x).map list_ele_t.value)
    (hd2 : ∀ x, (m2 x).map list_ele_t.value = (m x).map list_ele_t.value) : m2 = m1 := by
  funext x
  by_cases hx : x ∈ l
  · exact chain_heap_eq h1 h2 (fun y => by rw [hd2, hd1]) x hx
  · have hx0 : x ∉ l0 := fun h => hx ((hmem x).2 h)
    rw [hf1 x hx0, hf2 x hx0]

/-- C19: `q_sort` terminates on every queue whose chain from `head` ends in
`NULL`.  A step budget above the number of nodes is enough for `q_sort` to
return, and the result is the same for every such budget; `SortedMerge` returns
on two separate chains with a budget of their total length. -/
theorem q_sort_terminates (m : Heap) (q : queue_t) (l : List Nat)
    (h : Chain m q.head l) :
    (∀ fuel, l.length < fuel → ∃ m1 q1, q_sort fuel m (some q) = .ok (m1, some q1)) ∧
    (∀ f1 f2, l.length < f1 → l.length < f2 →
      q_sort f1 m (some q) = q_sort f2 m (some q)) ∧
    (∀ (a b : Ptr) (la lb : List Nat) (fuel : Nat), Chain m a la → Chain m b lb →
      (∀ x ∈ la, x ∉ lb) → la.length + lb.length ≤ fuel →
      ∃ m1 r, SortedMerge fuel m a b = .ok (m1, r)) := by
  refine ⟨?_, ?_, ?_⟩
  · intro fuel hf
    obtain ⟨m1, r, hrun, _⟩ := q_sort_run m q l fuel h hf
    exact ⟨m1, _, hrun⟩
  · intro f1 f2 h1 h2
    obtain ⟨m1, r1, hrun1, hch1, hfr1, hdat1⟩ := q_sort_run m q l f1 h h1
    obtain ⟨m2, r2, hrun2, hch2, hfr2, hdat2⟩ := q_sort_run m q l f2 h h2
    have hr : r2 = r1 := by rw [chain_head hch1, chain_head hch2]
    subst hr
    have hm : m2 = m1 :=
      heap_eq_of_chain hch1 hch2 (fun x => mem_msortL) hfr1 hfr2 hdat1 hdat2
    rw [hrun1, hrun2, hm]
  · intro a b la lb fuel ha hb hd hf
    obtain ⟨m1, r, hrun, _⟩ := SortedMerge_spec fuel m a b la lb ha hb hd hf
    exact ⟨m1, r, hrun⟩

/-- C19, on the queue holding "b", "a" (nodes 1, 2). -/
theorem q_sort_terminates_witness :
    ∃ m, tail_inserted [(bytes "b", 1), (bytes "a", 2)]
        = some (m, some ⟨some 1, some 2, 2⟩) ∧
      Chain m (some 1) [1, 2] ∧
      (∀ fuel, [1, 2].length < fuel →
        ∃ m1 q1, q_sort fuel m (some ⟨some 1, some 2, 2⟩) = .ok (m1, some q1)) ∧
      (∀ f1 f2, [1, 2].length < f1 → [1, 2].length < f2 →
        q_sort f1 m (some ⟨some 1, some 2, 2⟩) = q_sort f2 m (some ⟨some 1, some 2, 2⟩)) :=
  ⟨_, rfl, by decide,
    (q_sort_terminates _ ⟨some 1, some 2, 2⟩ [1, 2] (by decide)).1,
    (q_sort_terminates _ ⟨some 1, some 2, 2⟩ [1, 2] (by decide)).2.1⟩

/-! ## The order of ties after the sort -/

theorem strcasecmp_lt_of_lt_le (a b c : List Nat) (h1 : strcasecmp a b < 0)
    (h2 : strcasecmp b c ≤ 0) : strcasecmp a c < 0 := by
  by_contra hc
  have hca : strcasecmp c a ≤ 0 := by rw [strcasecmp_antisymm]; omega
  have hba := strcasecmp_trans b c a h2 hca
  rw [strcasecmp_antisymm] at hba
  omega

theorem strcasecmp_lt_of_le_lt (a b c : List Nat) (h1 : strcasecmp a b ≤ 0)
    (h2 : strcasecmp b c < 0) : strcasecmp a c < 0 := by
  by_contra hc
  have hca : strcasecmp c a ≤ 0 := by rw [strcasecmp_antisymm]; omega
  have hcb := strcasecmp_trans c a b hca h1
  rw [strcasecmp_antisymm] at hcb
  omega

theorem strcasecmp_eq_trans (a b c : List Nat) (h1 : strcasecmp a b = 0)
    (h2 : strcasecmp b c = 0) : strcasecmp a c = 0 := by
  have hac := strcasecmp_trans a b c (by omega) (by omega)
  have hcb : strcasecmp c b ≤ 0 := by rw [strcasecmp_antisymm]; omega
  have hba : strcasecmp b a ≤ 0 := by rw [strcasecmp_antisymm]; omega
  have hca := strcasecmp_trans c b a hcb hba
  rw [strcasecmp_antisymm] at hca
  omega

theorem tie_desc_trans (key : Nat → List Nat) (pos : Nat → Nat) (x y z : Nat)
    (h1 : tie_desc key pos x y) (h2 : tie_desc key pos y z) : tie_desc key pos x z := by
  unfold tie_desc at *
  rcases h1 with h1 | ⟨h1, p1⟩
  · rcases h2 with h2 | ⟨h2, _⟩
    · exact Or.inl (strcasecmp_lt_of_lt_le _ _ _ h1 (by omega))
    · exact Or.inl (strcasecmp_lt_of_lt_le _ _ _ h1 (by omega))
  · rcases h2 with h2 | ⟨h2, p2⟩
    · exact Or.inl (strcasecmp_lt_of_le_lt _ _ _ (by omega) h2)
    · exact Or.inr ⟨strcasecmp_eq_trans _ _ _ h1 h2, by omega⟩

theorem merge_tie_desc (key : Nat → List Nat) (pos : Nat → Nat) : ∀ (la lb : List Nat),
    la.Pairwise (tie_desc key pos) → lb.Pairwise (tie_desc key pos) →
    (∀ x ∈ la, ∀ y ∈ lb, pos x < pos y) →
    (List.merge la lb (casecmp_lt key)).Pairwise (tie_desc key pos) := by
  intro la
  induction la with
  | nil => intro lb _ hb _; simpa using hb
  | cons x la iha =>
    intro lb
    induction lb with
    | nil => intro ha _ _; simpa using ha
    | cons y lb ihb =>
      intro ha hb hpos
      have hxa := (List.pairwise_cons.1 ha).1
      have hyb := (List.pairwise_cons.1 hb).1
      by_cases hc : casecmp_lt key x y = true
      · rw [List.cons_merge_cons_pos _ _ _ hc]
        have hxy : tie_desc key pos x y := Or.inl (by simpa [casecmp_lt] using hc)
        refine List.pairwise_cons.2 ⟨?_, iha (y :: lb) (List.pairwise_cons.1 ha).2 hb
          (fun a h1 b h2 => hpos a (List.mem_cons_of_mem _ h1) b h2)⟩
        intro z hz
        rcases List.mem_merge.1 hz with h | h
        · exact hxa z h
        · rcases List.mem_cons.1 h with h | h
          · rw [h]; exact hxy
          · exact tie_desc_trans _ _ _ _ _ hxy (hyb z h)
      · rw [List.cons_merge_cons_neg _ _ _ hc]
        have hge : ¬ strcasecmp (key x) (key y) < 0 := by simpa [casecmp_lt] using hc
        have hyx : tie_desc key pos y x := by
          unfold tie_desc
          rw [strcasecmp_antisymm (key x) (key y)]
          have := hpos x (List.mem_cons_self _ _) y (List.mem_cons_self _ _)
          by_cases h0 : strcasecmp (key x) (key y) = 0
          · exact Or.inr ⟨by omega, this⟩
          · exact Or.inl (by omega)
        refine List.pairwise_cons.2 ⟨?_, ihb ha (List.pairwise_cons.1 hb).2
          (fun a h1 b h2 => hpos a h1 b (List.mem_cons_of_mem _ h2))⟩
        intro z hz
        rcases List.mem_merge.1 hz with h | h
        · rcases List.mem_cons.1 h with h | h
          · rw [h]; exact hyx
          · exact tie_desc_trans _ _ _ _ _ hyx (hxa z h)
        · exact hyb z h

theorem msortL_tie_desc (key : Nat → List Nat) (pos : Nat → Nat) : ∀ (n : Nat) (l : List Nat),
    l.length ≤ n → l.Pairwise (fun x y => pos x < pos y) →
    (msortL key l).Pairwise (tie_desc key pos) := by
  intro n
  induction n with
  | zero =>
    intro l hl _
    have : l = [] := List.eq_nil_of_length_eq_zero (by omega)
    subst this
    rw [msortL_short key [] (by simp)]
    exact List.Pairwise.nil
  | succ n ih =>
    intro l hl hp
    by_cases h : l.length < 2
    · rw [msortL_short key l h]
      match l, h with
      | [], _ => exact List.Pairwise.nil
      | [a], _ => exact List.pairwise_singleton _ _
      | _ :: _ :: _, h => simp only [List.length_cons] at h; omega
    · rw [msortL_long key l h]
      have hp2 := hp
      rw [← List.take_append_drop ((l.length + 1) / 2) l, List.pairwise_append] at hp2
      refine merge_tie_desc key pos _ _
        (ih _ (by simp only [List.length_take]; omega) hp2.1)
        (ih _ (by simp only [List.length_drop]; omega) hp2.2.1) ?_
      intro x hx y hy
      exact hp2.2.2 x (mem_msortL.1 hx) y (mem_msortL.1 hy)

theorem indexOf_increasing : ∀ (l : List Nat), l.Nodup →
    l.Pairwise (fun x y => l.indexOf x < l.indexOf y) := by
  intro l
  induction l with
  | nil => intro _; exact List.Pairwise.nil
  | cons a l ih =>
    intro hnd
    have hal : a ∉ l := (List.nodup_cons.1 hnd).1
    refine List.pairwise_cons.2 ⟨?_, ?_⟩
    · intro y hy
      have hne : a ≠ y := fun h => hal (h ▸ hy)
      rw [List.indexOf_cons_self, List.indexOf_cons_ne _ hne]
      omega
    · refine (ih (List.nodup_cons.1 hnd).2).imp_of_mem ?_
      intro x y hx hy hxy
      have hx1 : a ≠ x := fun h => hal (h ▸ hx)
      have hy1 : a ≠ y := fun h => hal (h ▸ hy)
      rw [List.indexOf_cons_ne _ hx1, List.indexOf_cons_ne _ hy1]
      omega

theorem indexOf_lt_of_pairwise {R : Nat → Nat → Prop} : ∀ (l : List Nat), l.Pairwise R →
    ∀ x y, x ∈ l → y ∈ l → x ≠ y → ¬ R x y → l.indexOf y < l.indexOf x := by
  intro l
  induction l with
  | nil => intro _ x y hx; cases hx
  | cons a l ih =>
    intro hp x y hx hy hxy hR
    by_cases hay : a = y
    · subst hay
      rw [List.indexOf_cons_self, List.indexOf_cons_ne _ (Ne.symm hxy)]
      omega
    · have hyl : y ∈ l := by
        rcases List.mem_cons.1 hy with h | h
        · exact absurd h.symm hay
        · exact h
      by_cases hax : a = x
      · subst hax
        exact absurd ((List.pairwise_cons.1 hp).1 y hyl) hR
      · have hxl : x ∈ l := by
          rcases List.mem_cons.1 hx with h | h
          · exact absurd h.symm hax
          · exact h
        rw [List.indexOf_cons_ne _ hay, List.indexOf_cons_ne _ hax]
        have := ih (List.pairwise_cons.1 hp).2 x y hxl hyl hxy hR
        omega

/-- C17: the tie order `q_sort` produces.  On a queue whose chain `l` from `head`
ends in `NULL`, the chain `l1` after `q_sort` is the permutation of `l` ordered
by case-insensitive key, with ties broken by descending position in `l`; in
particular two nodes whose strings compare equal under `strcasecmp` appear in
`l1` in the reverse of their order in `l`. -/
theorem q_sort_tie_order (m : Heap) (q : queue_t) (l : List Nat) (fuel : Nat)
    (h : Chain m q.head l) (hf : l.length < fuel) :
    ∃ m1 q1 l1, q_sort fuel m (some q) = .ok (m1, some q1) ∧ Chain m1 q1.head l1 ∧
      l1.Perm l ∧
      l1.Pairwise (tie_desc (valOf m1) (fun x => l.indexOf x)) ∧
      (∀ x y, x ∈ l → y ∈ l → strcasecmp (valOf m x) (valOf m y) = 0 →
        l.indexOf x < l.indexOf y → l1.indexOf y < l1.indexOf x) := by
  obtain ⟨m1, r, hrun, hch, _, hdat⟩ := q_sort_run m q l fuel h hf
  have hperm := msortL_perm (valOf m) _ l (le_refl _)
  have hpw : (msortL (valOf m) l).Pairwise (tie_desc (valOf m) (fun x => l.indexOf x)) :=
    msortL_tie_desc (valOf m) (fun x => l.indexOf x) _ l (le_refl _)
      (indexOf_increasing l (chain_nodup h))
  refine ⟨m1, _, _, hrun, hch, hperm, ?_, ?_⟩
  · rw [valOf_funext hdat]; exact hpw
  · intro x y hx hy hxy hidx
    have hne : x ≠ y := by
      rintro rfl
      omega
    refine indexOf_lt_of_pairwise _ hpw x y (mem_msortL.2 hx) (mem_msortL.2 hy) hne ?_
    intro hR
    rcases hR with hR | ⟨_, hR⟩
    · omega
    · have hR2 : l.indexOf y < l.indexOf x := hR
      omega

/-- C17, on the queue holding "a", "A" (nodes 1, 2): the removals after `q_sort`
yield "A" and then "a". -/
theorem q_sort_tie_order_witness :
    ∃ m, tail_inserted [(bytes "a", 1), (bytes "A", 2)]
        = some (m, some ⟨some 1, some 2, 2⟩) ∧
      Chain m (some 1) [1, 2] ∧
      (∃ m1 q1 l1, q_sort 3 m (some ⟨some 1, some 2, 2⟩) = .ok (m1, some q1) ∧
        Chain m1 q1.head l1 ∧ l1.Perm [1, 2] ∧
        l1.Pairwise (tie_desc (valOf m1) (fun x => [1, 2].indexOf x)) ∧
        (∀ x y, x ∈ [1, 2] → y ∈ [1, 2] → strcasecmp (valOf m x) (valOf m y) = 0 →
          [1, 2].indexOf x < [1, 2].indexOf y → l1.indexOf y < l1.indexOf x)) ∧
      drained (after_sort (tail_inserted [(bytes "a", 1), (bytes "A", 2)]) 3) 2 4
        = some [(true, bytes "A"), (true, bytes "a")] :=
  ⟨_, rfl, by decide, q_sort_tie_order _ ⟨some 1, some 2, 2⟩ [1, 2] 3 (by decide) (by decide),
    by decide⟩

/-! ## Sequences of calls from `q_new` -/

theorem copy_out_error (sp : Option (List Nat)) (v : List Nat) (bufsize : Nat) (e : Err)
    (h : copy_out sp v bufsize = .error e) : e = .fault := by
  cases sp with
  | none => simp [copy_out] at h
  | some buf =>
    simp only [copy_out, strncpy] at h
    by_cases h1 : size_t_dec bufsize ≤ buf.length
    · simp only [h1, if_true] at h
      split at h
      · simp at h
      · simp only [Except.error.injEq] at h
        exact h.symm
    · simp only [h1, if_false, Except.error.injEq] at h
      exact h.symm

/-- What every state reached from `q_new` satisfies: the chain from `head` ends
in `NULL` and has at most `size` nodes. -/
theorem perform_keeps_chain (m : Heap) (q : Option queue_t) (c : Call)
    (hJ : ∀ qq, q = some qq → ∃ l, Chain m qq.head l ∧ (l.length : Int) ≤ qq.size)
    (hc : c.possible m = true) :
    perform m q c ≠ .error .fuel ∧
    ∀ r m1 q1, perform m q c = .ok (r, m1, q1) →
      (∀ qq, q1 = some qq → ∃ l, Chain m1 qq.head l ∧ (l.length : Int) ≤ qq.size) ∧
      q_size q1 = q_size q + c.delta r := by
  cases q with
  | none =>
    cases c <;>
      simp [perform, q_insert_head, q_insert_tail, q_remove_head, q_reverse, q_sort, q_size,
        Call.delta]
  | some qq =>
    obtain ⟨l, hch, hlen⟩ := hJ qq rfl
    cases c with
    | insert_head s news_ok newh =>
      refine ⟨by simp [perform], ?_⟩
      intro r m1 q1 hrun
      simp only [perform, Except.ok.injEq] at hrun
      cases news_ok with
      | false =>
        simp only [q_insert_head, Bool.not_false, if_true, Prod.mk.injEq] at hrun
        obtain ⟨rfl, rfl, rfl⟩ := hrun
        exact ⟨fun q2 h2 => by cases h2; exact ⟨l, hch, hlen⟩, by simp [Call.delta]⟩
      | true =>
        cases newh with
        | none =>
          simp only [q_insert_head, Bool.not_true, Bool.false_eq_true, if_false,
            Prod.mk.injEq] at hrun
          obtain ⟨rfl, rfl, rfl⟩ := hrun
          exact ⟨fun q2 h2 => by cases h2; exact ⟨l, hch, hlen⟩, by simp [Call.delta]⟩
        | some p =>
          have hp : m p = none := by
            simpa [Call.possible, alloc_fresh] using hc
          have hpl : p ∉ l := fresh_not_mem hch hp
          simp only [q_insert_head, Bool.not_true, Bool.false_eq_true, if_false,
            Prod.mk.injEq] at hrun
          obtain ⟨rfl, rfl, rfl⟩ := hrun
          have hch1 : Chain (m.store p ⟨strcpy s, qq.head⟩) (some p) (p :: l) :=
            ⟨rfl, _, store_same _ _ _,
              chain_frame (fun x hx => store_other _ _ _ _ (fun h : x = p => hpl (h ▸ hx))) hch⟩
          refine ⟨?_, ?_⟩
          · intro q2 h2
            cases h2
            refine ⟨p :: l, ?_, ?_⟩
            · split <;> exact hch1
            · simp only [List.length_cons]
              split <;> (push_cast; try dsimp only) <;> omega
          · simp only [q_size, Call.delta]
            split <;> rfl
    | insert_tail s news_ok newt =>
      simp only [perform]
      cases news_ok with
      | false =>
        simp only [q_insert_tail, Bool.not_false, if_true]
        refine ⟨by simp, ?_⟩
        intro r m1 q1 hrun
        simp only [Except.ok.injEq, Prod.mk.injEq] at hrun
        obtain ⟨rfl, rfl, rfl⟩ := hrun
        exact ⟨fun q2 h2 => by cases h2; exact ⟨l, hch, hlen⟩, by simp [Call.delta]⟩
      | true =>
        cases newt with
        | none =>
          simp only [q_insert_tail, Bool.not_true, Bool.false_eq_true, if_false]
          refine ⟨by simp, ?_⟩
          intro r m1 q1 hrun
          simp only [Except.ok.injEq, Prod.mk.injEq] at hrun
          obtain ⟨rfl, rfl, rfl⟩ := hrun
          exact ⟨fun q2 h2 => by cases h2; exact ⟨l, hch, hlen⟩, by simp [Call.delta]⟩
        | some p =>
          have hp : m p = none := by
            simpa [Call.possible, alloc_fresh] using hc
          have hpl : p ∉ l := fresh_not_mem hch hp
          simp only [q_insert_tail, Bool.not_true, Bool.false_eq_true, if_false]
          cases ht : qq.tail with
          | none =>
            simp only
            refine ⟨by simp, ?_⟩
            intro r m1 q1 hrun
            simp only [Except.ok.injEq, Prod.mk.injEq] at hrun
            obtain ⟨rfl, rfl, rfl⟩ := hrun
            refine ⟨?_, by simp [q_size, Call.delta]⟩
            intro q2 h2
            cases h2
            refine ⟨[p], ⟨rfl, _, store_same _ _ _, rfl⟩, ?_⟩
            simp only [List.length_singleton]
            push_cast
            omega
          | some t =>
            simp only
            cases hmt : (m.store p ⟨strcpy s, none⟩) t with
            | none => simp
            | some nt =>
              simp only
              refine ⟨by simp, ?_⟩
              intro r m1 q1 hrun
              simp only [Except.ok.injEq, Prod.mk.injEq] at hrun
              obtain ⟨rfl, rfl, rfl⟩ := hrun
              refine ⟨?_, by simp [q_size, Call.delta]⟩
              intro q2 h2
              cases h2
              by_cases htl : t ∈ l
              · have htp : t ≠ p := fun h => hpl (h ▸ htl)
                obtain ⟨l1, l2, rfl⟩ := List.append_of_mem htl
                obtain ⟨r0, hseg, hlast⟩ := seg_append.1 hch
                have hr0 : r0 = some t := hlast.1
                subst hr0
                have hnd := chain_nodup hch
                have htl1 : t ∉ l1 := fun hmem =>
                  (List.nodup_append.1 hnd).2.2 hmem (List.mem_cons_self _ _)
                have hpl1 : p ∉ l1 := fun hmem => hpl (List.mem_append_left _ hmem)
                refine ⟨l1 ++ [t, p], ?_, ?_⟩
                · refine seg_append.2 ⟨some t, ?_, ?_⟩
                  · refine seg_frame ?_ hseg
                    intro x hx
                    rw [store_other _ _ _ _ (fun h : x = t => htl1 (h ▸ hx)),
                      store_other _ _ _ _ (fun h : x = p => hpl1 (h ▸ hx))]
                  · refine ⟨rfl, _, store_same _ _ _, rfl, ⟨strcpy s, none⟩, ?_, rfl⟩
                    rw [store_other _ _ _ _ (Ne.symm htp)]
                    exact store_same _ _ _
                · simp only [List.length_append, List.length_cons, List.length_nil] at hlen ⊢
                  push_cast at hlen ⊢
                  omega
              · refine ⟨l, ?_, ?_⟩
                · refine chain_frame ?_ hch
                  intro x hx
                  rw [store_other _ _ _ _ (fun h : x = t => htl (h ▸ hx)),
                    store_other _ _ _ _ (fun h : x = p => hpl (h ▸ hx))]
                · show (l.length : Int) ≤ qq.size + 1
                  omega
    | remove_head sp bufsize =>
      simp only [perform, q_remove_head]
      cases l with
      | nil =>
        have hh : qq.head = none := hch
        simp only [hh]
        refine ⟨by simp, ?_⟩
        intro r m1 q1 hrun
        simp only [Except.ok.injEq, Prod.mk.injEq] at hrun
        obtain ⟨rfl, rfl, rfl⟩ := hrun
        exact ⟨fun q2 h2 => by cases h2; exact ⟨[], hch, hlen⟩, by simp [Call.delta]⟩
      | cons a l =>
        have hal : a ∉ l := chain_head_not_mem hch
        obtain ⟨hh, n, hn, hrest⟩ := hch
        have hsz : qq.size ≠ 0 := by
          simp only [List.length_cons] at hlen
          push_cast at hlen
          omega
        simp only [hh, hn]
        cases hco : copy_out sp n.value bufsize with
        | error e =>
          simp only
          refine ⟨?_, by simp⟩
          rw [copy_out_error sp n.value bufsize e hco]
          simp
        | ok sp1 =>
          simp only
          refine ⟨by simp, ?_⟩
          intro r m1 q1 hrun
          simp only [Except.ok.injEq, Prod.mk.injEq] at hrun
          obtain ⟨rfl, rfl, rfl⟩ := hrun
          refine ⟨?_, ?_⟩
          · intro q2 h2
            cases h2
            refine ⟨l, ?_, ?_⟩
            · simp only [hsz, ne_eq, not_false_eq_true, if_true]
              exact chain_frame
                (fun x hx => free_other _ _ _ (fun h : x = a => hal (h ▸ hx))) hrest
            · simp only [hsz, ne_eq, not_false_eq_true, if_true]
              simp only [List.length_cons] at hlen
              push_cast at hlen
              omega
          · simp only [q_size, hsz, ne_eq, not_false_eq_true, if_true, Call.delta]
            omega
    | reverse =>
      have hb : l.length ≤ budget (some qq) := by
        simp only [budget, q_size]; omega
      obtain ⟨m1, hrun, hch1, _, _⟩ := q_reverse_run_chain m qq l _ hch hb
      simp only [perform, hrun]
      refine ⟨by simp, ?_⟩
      intro r m2 q2 h2
      simp only [Except.ok.injEq, Prod.mk.injEq] at h2
      obtain ⟨rfl, rfl, rfl⟩ := h2
      refine ⟨?_, by simp [q_size, Call.delta]⟩
      intro q3 h3
      cases h3
      exact ⟨l.reverse, hch1, by simpa using hlen⟩
    | sort =>
      have hb : l.length < budget (some qq) := by
        simp only [budget, q_size]; omega
      obtain ⟨m1, r1, hrun, hch1, _, _⟩ := q_sort_run m qq l _ hch hb
      simp only [perform, hrun]
      refine ⟨by simp, ?_⟩
      intro r m2 q2 h2
      simp only [Except.ok.injEq, Prod.mk.injEq] at h2
      obtain ⟨rfl, rfl, rfl⟩ := h2
      refine ⟨?_, by simp [q_size, Call.delta]⟩
      intro q3 h3
      cases h3
      refine ⟨_, hch1, ?_⟩
      rw [(msortL_perm _ _ _ (le_refl _)).length_eq]
      exact hlen

theorem run_keeps_chain : ∀ (calls : List Call) (m : Heap) (q : Option queue_t),
    (∀ qq, q = some qq → ∃ l, Chain m qq.head l ∧ (l.length : Int) ≤ qq.size) →
    possible_run m q calls = true →
    run m q calls ≠ .error .fuel ∧
    ∀ rs m1 q1, run m q calls = .ok (rs, m1, q1) →
      (∀ qq, q1 = some qq → ∃ l, Chain m1 qq.head l ∧ (l.length : Int) ≤ qq.size) ∧
      q_size q1 = q_size q + net_count calls rs := by
  intro calls
  induction calls with
  | nil =>
    intro m q hJ _
    refine ⟨by simp [run], ?_⟩
    intro rs m1 q1 hrun
    simp only [run, Except.ok.injEq, Prod.mk.injEq] at hrun
    obtain ⟨rfl, rfl, rfl⟩ := hrun
    exact ⟨hJ, by simp [net_count]⟩
  | cons c cs ih =>
    intro m q hJ hp
    simp only [possible_run, Bool.and_eq_true] at hp
    obtain ⟨hnf, hstep⟩ := perform_keeps_chain m q c hJ hp.1
    cases hpc : perform m q c with
    | error e =>
      simp only [run, hpc]
      refine ⟨?_, by simp⟩
      intro h
      rw [hpc] at hnf
      simp only [Except.error.injEq] at h
      exact hnf (by rw [h])
    | ok x =>
      obtain ⟨r, m1, q1⟩ := x
      obtain ⟨hJ1, hsize1⟩ := hstep r m1 q1 hpc
      have hp2 : possible_run m1 q1 cs = true := by
        have := hp.2
        rw [hpc] at this
        exact this
      obtain ⟨hnf2, hrest⟩ := ih m1 q1 hJ1 hp2
      simp only [run, hpc]
      cases hrc : run m1 q1 cs with
      | error e =>
        simp only
        refine ⟨?_, by simp⟩
        intro h
        rw [hrc] at hnf2
        simp only [Except.error.injEq] at h
        exact hnf2 (by rw [h])
      | ok y =>
        obtain ⟨rs, m2, q2⟩ := y
        simp only
        refine ⟨by simp, ?_⟩
        intro rs0 m3 q3 h3
        simp only [Except.ok.injEq, Prod.mk.injEq] at h3
        obtain ⟨rfl, rfl, rfl⟩ := h3
        obtain ⟨hJ2, hsize2⟩ := hrest rs m2 q2 hrc
        refine ⟨hJ2, ?_⟩
        rw [hsize2, hsize1]
        simp only [net_count]
        ring

/-- C12: `q_size` counts the successful insertions minus the successful
removals.  For every sequence of calls made from the queue `q_new` returns
(insertions, removals, reversals and sorts in any order, with any possible
answers of the allocator), the run never exhausts its step budget, and when it
completes `q_size` is the number of insertions that returned true minus the
number of `q_remove_head` calls that returned true. -/
theorem size_is_net_count (malloc_ok : Bool) (m0 : Heap) (calls : List Call)
    (hp : possible_run m0 (q_new malloc_ok) calls = true) :
    run m0 (q_new malloc_ok) calls ≠ .error .fuel ∧
    ∀ rs m q, run m0 (q_new malloc_ok) calls = .ok (rs, m, q) →
      q_size q = net_count calls rs := by
  have hJ : ∀ qq, q_new malloc_ok = some qq →
      ∃ l, Chain m0 qq.head l ∧ (l.length : Int) ≤ qq.size := by
    intro qq hq
    cases malloc_ok with
    | false => simp [q_new] at hq
    | true =>
      simp only [q_new, if_true, Option.some.injEq] at hq
      subst hq
      exact ⟨[], rfl, le_refl _⟩
  obtain ⟨hnf, hrest⟩ := run_keeps_chain calls m0 (q_new malloc_ok) hJ hp
  refine ⟨hnf, ?_⟩
  intro rs m q hrun
  have := (hrest rs m q hrun).2
  rw [this]
  cases malloc_ok <;> simp [q_new, q_size]

/-- C12, on a sequence of two insertions, a failed insertion, a removal, a
reversal, a sort and two more removals, the last of which finds the queue
empty. -/
theorem size_is_net_count_witness :
    possible_run Heap.empty (q_new true)
      [.insert_tail (bytes "b") true (some 1), .insert_head (bytes "a") true (some 2),
        .insert_tail (bytes "c") true none, .remove_head none 0, .reverse, .sort,
        .remove_head none 0, .remove_head none 0] = true ∧
    (∃ m q, run Heap.empty (q_new true)
      [.insert_tail (bytes "b") true (some 1), .insert_head (bytes "a") true (some 2),
        .insert_tail (bytes "c") true none, .remove_head none 0, .reverse, .sort,
        .remove_head none 0, .remove_head none 0]
      = .ok ([true, true, false, true, true, true, true, false], m, q) ∧ q_size q = 0) ∧
    (run Heap.empty (q_new true)
      [.insert_tail (bytes "b") true (some 1), .insert_head (bytes "a") true (some 2),
        .insert_tail (bytes "c") true none, .remove_head none 0, .reverse, .sort,
        .remove_head none 0, .remove_head none 0] ≠ .error .fuel ∧
      ∀ rs m q, run Heap.empty (q_new true)
        [.insert_tail (bytes "b") true (some 1), .insert_head (bytes "a") true (some 2),
          .insert_tail (bytes "c") true none, .remove_head none 0, .reverse, .sort,
          .remove_head none 0, .remove_head none 0] = .ok (rs, m, q) →
        q_size q = net_count
          [.insert_tail (bytes "b") true (some 1), .insert_head (bytes "a") true (some 2),
            .insert_tail (bytes "c") true none, .remove_head none 0, .reverse, .sort,
            .remove_head none 0, .remove_head none 0] rs) :=
  ⟨by decide, ⟨_, _, rfl, by decide⟩,
    size_is_net_count true Heap.empty _ (by decide)⟩

/-- C11: two reachable states in which the data-model invariants fail.  After
`insert_tail` of "a" and `remove_head` the queue has `size` 0 and no head, but
`tail` still holds the address of the released node.  After `insert_tail` of
"b", `insert_tail` of "a" and `q_sort` the chain is node 2, node 1 and `tail` is
node 2, which is not the last node.  In both states no chain makes the
invariants true. -/
theorem invariants_broken_example :
    (possible_run Heap.empty (q_new true)
        [.insert_tail (bytes "a") true (some 1), .remove_head none 0] = true ∧
      ∃ m, run Heap.empty (q_new true)
          [.insert_tail (bytes "a") true (some 1), .remove_head none 0]
          = .ok ([true, true], m, some ⟨none, some 1, 0⟩) ∧
        ∀ l, ¬ Inv m ⟨none, some 1, 0⟩ l) ∧
    (possible_run Heap.empty (q_new true)
        [.insert_tail (bytes "b") true (some 1), .insert_tail (bytes "a") true (some 2),
          .sort] = true ∧
      ∃ m, run Heap.empty (q_new true)
          [.insert_tail (bytes "b") true (some 1), .insert_tail (bytes "a") true (some 2),
            .sort]
          = .ok ([true, true, true], m, some ⟨some 2, some 2, 2⟩) ∧
        Chain m (some 2) [2, 1] ∧
        ∀ l, ¬ Inv m ⟨some 2, some 2, 2⟩ l) := by
  refine ⟨⟨by decide, _, rfl, ?_⟩, ⟨by decide, _, rfl, by decide, ?_⟩⟩
  · intro l h
    have hl : l = [] := by
      have := chain_head h.1
      cases l with
      | nil => rfl
      | cons a l => simp at this
    have ht := h.2.2
    rw [hl] at ht
    simp at ht
  · intro l h
    have hl : l = [2, 1] := chain_functional h.1 (by decide)
    have ht := h.2.2
    rw [hl] at ht
    simp at ht

/-- C13: the drain after a successful `q_insert_tail`.  From `q_new`,
`q_insert_tail` of "a" succeeds and `q_size` is 1; the one `q_remove_head`
returns true and leaves `size` 0 and no head, but `tail` is not absent: it holds
the address of the released node.  After that sequence a further
`q_insert_tail` of "b" writes through the released node when `malloc` answers
a new address, and when `malloc` answers the released address again it returns
true with `q_size` 1 and no head, so that the one `q_remove_head` returns
false. -/
theorem drain_leaves_tail_example :
    (possible_run Heap.empty (q_new true) [.insert_tail (bytes "a") true (some 1)] = true ∧
      ∃ m, run Heap.empty (q_new true) [.insert_tail (bytes "a") true (some 1)]
        = .ok ([true], m, some ⟨some 1, some 1, 1⟩)) ∧
    (∃ m, run Heap.empty (q_new true)
        [.insert_tail (bytes "a") true (some 1), .remove_head none 0]
        = .ok ([true, true], m, some ⟨none, some 1, 0⟩) ∧ m 1 = none) ∧
    (possible_run Heap.empty (q_new true)
        [.insert_tail (bytes "a") true (some 1), .remove_head none 0,
          .insert_tail (bytes "b") true (some 2)] = true ∧
      run Heap.empty (q_new true)
        [.insert_tail (bytes "a") true (some 1), .remove_head none 0,
          .insert_tail (bytes "b") true (some 2)] = .error .fault) ∧
    (possible_run Heap.empty (q_new true)
        [.insert_tail (bytes "a") true (some 1), .remove_head none 0,
          .insert_tail (bytes "b") true (some 1), .remove_head none 0] = true ∧
      ∃ m, run Heap.empty (q_new true)
          [.insert_tail (bytes "a") true (some 1), .remove_head none 0,
            .insert_tail (bytes "b") true (some 1), .remove_head none 0]
        = .ok ([true, true, true, false], m, some ⟨none, some 1, 1⟩)) :=
  ⟨⟨by decide, _, rfl⟩, ⟨_, rfl, by decide⟩, ⟨by decide, rfl⟩, ⟨by decide, _, rfl⟩⟩

theorem msortL_filter_ties (key : Nat → List Nat) (l : List Nat) (hnd : l.Nodup)
    (k : List Nat) :
    (msortL key l).filter (fun x => ties_with k (key x))
      = (l.filter (fun x => ties_with k (key x))).reverse := by
  have hpw := msortL_tie_desc key (fun x => l.indexOf x) _ l (le_refl _)
    (indexOf_increasing l hnd)
  have hperm := msortL_perm key _ l (le_refl _)
  haveI : IsAntisymm Nat (fun x y => l.indexOf y < l.indexOf x) :=
    ⟨fun a b h1 h2 => absurd h1 (by omega)⟩
  refine List.eq_of_perm_of_sorted
    (r := fun x y => l.indexOf y < l.indexOf x) ?_ ?_ ?_
  · exact (hperm.filter _).trans (List.reverse_perm _).symm
  · have h1 : ((msortL key l).filter (fun x => ties_with k (key x))).Pairwise
        (tie_desc key (fun x => l.indexOf x)) := hpw.sublist (List.filter_sublist _)
    refine h1.imp_of_mem ?_
    intro x y hx hy hR
    have hx0 : strcasecmp (key x) k = 0 := by
      simpa [ties_with] using (List.mem_filter.1 hx).2
    have hy0 : strcasecmp (key y) k = 0 := by
      simpa [ties_with] using (List.mem_filter.1 hy).2
    have hky : strcasecmp k (key y) = 0 := by rw [strcasecmp_antisymm]; omega
    have hxy := strcasecmp_eq_trans _ _ _ hx0 hky
    rcases hR with hR | ⟨_, hR⟩
    · omega
    · exact hR
  · show (List.reverse _).Pairwise _
    rw [List.pairwise_reverse]
    exact (indexOf_increasing l hnd).sublist (List.filter_sublist _)

/-- C3, as amended: `q_sort` reverses ties.  On a queue whose chain from `head`
ends in `NULL`, for every string `k` the nodes whose string compares equal to `k`
under `strcasecmp` appear in the chain after `q_sort` in the reverse of their
order before it, and so do their strings in the sequence of values read from
`head`. -/
theorem q_sort_reverses_ties (m : Heap) (q : queue_t) (l : List Nat) (fuel : Nat)
    (k : List Nat) (h : Chain m q.head l) (hf : l.length < fuel) :
    ∃ m1 q1 l1, q_sort fuel m (some q) = .ok (m1, some q1) ∧ Chain m1 q1.head l1 ∧
      l1.filter (fun x => ties_with k (valOf m1 x))
        = (l.filter (fun x => ties_with k (valOf m x))).reverse ∧
      (l1.map (valOf m1)).filter (ties_with k)
        = ((l.map (valOf m)).filter (ties_with k)).reverse := by
  obtain ⟨m1, r, hrun, hch, _, hdat⟩ := q_sort_run m q l fuel h hf
  have hf1 := msortL_filter_ties (valOf m) l (chain_nodup h) k
  refine ⟨m1, _, _, hrun, hch, ?_, ?_⟩
  · rw [valOf_funext hdat]; exact hf1
  · rw [valOf_funext hdat, List.filter_map, List.filter_map, ← List.map_reverse]
    exact congrArg (List.map (valOf m)) hf1

/-- C3, as amended, on the queue holding "a", "B", "A" (nodes 1, 2, 3) and the
key "a": the removals after `q_sort` yield "A", "a", "B". -/
theorem q_sort_reverses_ties_witness :
    ∃ m, tail_inserted [(bytes "a", 1), (bytes "B", 2), (bytes "A", 3)]
        = some (m, some ⟨some 1, some 3, 3⟩) ∧
      Chain m (some 1) [1, 2, 3] ∧
      (∃ m1 q1 l1, q_sort 4 m (some ⟨some 1, some 3, 3⟩) = .ok (m1, some q1) ∧
        Chain m1 q1.head l1 ∧
        l1.filter (fun x => ties_with (bytes "a") (valOf m1 x))
          = ([1, 2, 3].filter (fun x => ties_with (bytes "a") (valOf m x))).reverse ∧
        (l1.map (valOf m1)).filter (ties_with (bytes "a"))
          = (([1, 2, 3].map (valOf m)).filter (ties_with (bytes "a"))).reverse) ∧
      drained (after_sort
          (tail_inserted [(bytes "a", 1), (bytes "B", 2), (bytes "A", 3)]) 4) 3 4
        = some [(true, bytes "A"), (true, bytes "a"), (true, bytes "B")] :=
  ⟨_, rfl, by decide,
    q_sort_reverses_ties _ ⟨some 1, some 3, 3⟩ [1, 2, 3] 4 (bytes "a") (by decide) (by decide),
    by decide⟩

end Queue
